import Mathlib

/-!
Verification development for the fsfill free-space derivation engine.

The definitions in this file are shallow embeddings of the Rust sources:
  * `src/usage_map.rs`   — the segment-merging usage map,
  * `src/fill.rs`        — the space filler with the zero generator,
  * `src/filesys/e2fs/extent.rs` — the extent tree and its iterator,
  * `src/filesys/e2fs/inode.rs`  — the regular-file walker helpers,
  * `src/filesys/e2fs/mod.rs`    — superblock option validation and the
    block-group scanner sparsity rule.

Machine integers (u16, u32, u64, usize) are modelled as `Nat`; the drive
sizes and offsets involved never approach the 64-bit boundary in any of the
statements below, and additions that Rust performs on u64 are stated on the
mathematical naturals.  A Rust panic (a failed assert, an out-of-bounds
index, or an `unwrap` of `None`) is modelled by returning `none`; fallible
code therefore lives in the `Option` monad.
-/

/-- Allocation status of a segment (enum `AllocStatus` in `usage_map.rs`). -/
inductive AllocStatus : Type
  | Free : AllocStatus
  | Used : AllocStatus
deriving DecidableEq, Repr

/-- A run of bytes on the drive (struct `Segment` in `usage_map.rs`).
The Rust field `end` is a Lean keyword and is called `stop` here. -/
structure Segment : Type where
  start : Nat
  stop : Nat
  status : AllocStatus
deriving DecidableEq, Repr

/-- The usage map is the vector of segments wrapped by `UsageMap` in
`usage_map.rs`; we work with the underlying list directly. -/
abbrev UMap : Type := List Segment

/-- `UsageMap::new(len)`; the `assert!(len > 0)` is a hypothesis of the
theorems below. -/
def newMap (len : Nat) : UMap :=
  [⟨0, len, AllocStatus.Free⟩]

/-- `Vec::remove(i)` on a list (removal of the element at index `i`). -/
def removeAt (l : UMap) (i : Nat) : UMap :=
  l.take i ++ l.drop (i + 1)

/-- `Vec::insert(i, a)` on a list. -/
def insertAt (l : UMap) (i : Nat) (a : Segment) : UMap :=
  l.take i ++ [a] ++ l.drop i

/-- The deletion loop of `UsageMap::add_segment`:
`for _ in (start_i + 1)..end_i { vector.remove(start_i + 1); }`,
expressed with the iteration count `k = end_i - (start_i + 1)`. -/
def removeLoop (l : UMap) (p : Nat) : Nat → UMap
  | 0 => l
  | k + 1 => removeLoop (removeAt l p) p k

/-- `UsageMap::clean_zero_sized`: repeatedly removes every segment with
`start == end`, i.e. keeps exactly the non-empty segments. -/
def cleanZeroSized (l : UMap) : UMap :=
  l.filter (fun e => !(e.start == e.stop))

/-- The loop body of `UsageMap::merge_neighbours`, fuelled by the length of
the list (each iteration shrinks the list or advances the head, so
`l.length` fuel always suffices). -/
def mergeFuel : Nat → UMap → UMap
  | 0, l => l
  | _ + 1, [] => []
  | _ + 1, [a] => [a]
  | fuel + 1, a :: b :: rest =>
    if a.status = b.status then
      mergeFuel fuel ({ a with stop := b.stop } :: rest)
    else
      a :: mergeFuel fuel (b :: rest)

/-- `UsageMap::merge_neighbours`. -/
def mergeNeighbours (l : UMap) : UMap :=
  mergeFuel l.length l

/-- `UsageMap::add_segment`.  `none` models a panic (failed assert or a
failed `position(..).unwrap()` / vector indexing). -/
def addSegment (m : UMap) (new : Segment) : Option UMap :=
  if new.start = new.stop then some m
  else if ¬ new.start < new.stop then none
  else
    match m.getLast? with
    | none => none
    | some last =>
      if ¬ new.stop ≤ last.stop then none
      else
        match m.findIdx? (fun e => decide (new.start ≥ e.start) && decide (new.start < e.stop)),
              m.findIdx? (fun e => decide (new.stop > e.start) && decide (new.stop ≤ e.stop)) with
        | some start_i, some end_i =>
          let m1 := removeLoop m (start_i + 1) (end_i - (start_i + 1))
          let m2 := if start_i = end_i then
              match m1[start_i]? with
              | some s => some (insertAt m1 (start_i + 1) s)
              | none => none
            else some m1
          match m2 with
          | none => none
          | some m2 =>
            let end_i := start_i + 1
            match m2[start_i]?, m2[end_i]? with
            | some s, some e =>
              let m3 :=
                if s.status = e.status then
                  if s.status = new.status then
                    removeAt (m2.set start_i { s with stop := e.stop }) end_i
                  else
                    insertAt ((m2.set start_i { s with stop := new.start }).set end_i
                      { e with start := new.stop }) (start_i + 1) new
                else
                  if s.status = new.status then
                    (m2.set start_i { s with stop := new.stop }).set end_i
                      { e with start := new.stop }
                  else
                    (m2.set start_i { s with stop := new.start }).set end_i
                      { e with start := new.start }
              some (mergeNeighbours (cleanZeroSized m3))
            | _, _ => none
        | _, _ => none

/-- `UsageMap::update`.  Computes the clipped end, checks the
`assert!(start <= map_size)` precondition, and delegates to `addSegment`.
`self.size()` is `last().unwrap().end`, hence the `getLast?` match. -/
def update (m : UMap) (start size : Nat) (status : AllocStatus) : Option UMap :=
  match m.getLast? with
  | none => none
  | some last =>
    let mapSize := last.stop
    let e := if start + size > mapSize then mapSize else start + size
    if start ≤ mapSize then addSegment m ⟨start, e, status⟩ else none

/-- A sequence of `update` calls, the shape quantified over in the
invariant claims. -/
def applyUpdates (m : UMap) : List (Nat × Nat × AllocStatus) → Option UMap
  | [] => some m
  | (s, sz, st) :: rest =>
    match update m s sz st with
    | some m1 => applyUpdates m1 rest
    | none => none

/-- Observation function: the status the map records for byte `x`
(the status of the first segment whose half-open range contains `x`). -/
def statusAt (m : UMap) (x : Nat) : Option AllocStatus :=
  match m with
  | [] => none
  | e :: rest => if e.start ≤ x ∧ x < e.stop then some e.status else statusAt rest x

/-- The segments glue into a chain from `s` to `n`: the first segment
starts at `s`, each segment is non-empty, and each end is the start of the
next; an empty list is a chain exactly when `s = n`. -/
def Chain (s : Nat) (m : UMap) (n : Nat) : Prop :=
  match m with
  | [] => s = n
  | e :: rest => e.start = s ∧ s < e.stop ∧ Chain e.stop rest n

/-- As `Chain`, but tolerating empty segments (the intermediate shape
inside `add_segment` before `clean_zero_sized` runs). -/
def WChain (s : Nat) (m : UMap) (n : Nat) : Prop :=
  match m with
  | [] => s = n
  | e :: rest => e.start = s ∧ s ≤ e.stop ∧ WChain e.stop rest n

/-- No two adjacent segments have the same status. -/
def Alt (m : UMap) : Prop :=
  match m with
  | [] => True
  | [_] => True
  | a :: b :: rest => a.status ≠ b.status ∧ Alt (b :: rest)

/-- The full usage-map invariant for a map of size `n`. -/
def WFMap (m : UMap) (n : Nat) : Prop :=
  Chain 0 m n ∧ Alt m ∧ 0 < n

-- Scenario checks from the specification (§8, seeds A and B).

example : newMap 5 = [⟨0, 5, AllocStatus.Free⟩] := rfl

example : update (newMap 20) 2 9 AllocStatus.Used =
    some [⟨0, 2, AllocStatus.Free⟩, ⟨2, 11, AllocStatus.Used⟩, ⟨11, 20, AllocStatus.Free⟩] := by
  rfl

example : update (newMap 20) 2 9 AllocStatus.Free = some [⟨0, 20, AllocStatus.Free⟩] := by
  rfl

-- Basic facts about chains, statuses and the list surgery helpers.

theorem Chain.lower_le {s : Nat} {m : UMap} {n : Nat} (h : Chain s m n) : s ≤ n := by
  induction m generalizing s with
  | nil => exact Nat.le_of_eq h
  | cons e rest ih =>
    obtain ⟨-, h2, h3⟩ := h
    exact Nat.le_trans (Nat.le_of_lt h2) (ih h3)

theorem WChain.wle {s : Nat} {m : UMap} {n : Nat} (h : WChain s m n) : s ≤ n := by
  induction m generalizing s with
  | nil => exact Nat.le_of_eq h
  | cons e rest ih =>
    obtain ⟨-, h2, h3⟩ := h
    exact Nat.le_trans h2 (ih h3)

theorem Chain.toWChain {s : Nat} {m : UMap} {n : Nat} (h : Chain s m n) : WChain s m n := by
  induction m generalizing s with
  | nil => exact h
  | cons e rest ih =>
    obtain ⟨h1, h2, h3⟩ := h
    exact ⟨h1, Nat.le_of_lt h2, ih h3⟩

theorem chain_glue {s t n : Nat} {A B : UMap} (hA : Chain s A t) (hB : Chain t B n) :
    Chain s (A ++ B) n := by
  induction A generalizing s with
  | nil => cases hA; exact hB
  | cons e rest ih =>
    obtain ⟨h1, h2, h3⟩ := hA
    exact ⟨h1, h2, ih h3⟩

theorem wchain_glue {s t n : Nat} {A B : UMap} (hA : WChain s A t) (hB : WChain t B n) :
    WChain s (A ++ B) n := by
  induction A generalizing s with
  | nil => cases hA; exact hB
  | cons e rest ih =>
    obtain ⟨h1, h2, h3⟩ := hA
    exact ⟨h1, h2, ih h3⟩

theorem chain_split {s n : Nat} {A B : UMap} {S : Segment}
    (h : Chain s (A ++ S :: B) n) :
    Chain s A S.start ∧ S.start < S.stop ∧ Chain S.stop B n := by
  induction A generalizing s with
  | nil =>
    obtain ⟨h1, h2, h3⟩ := h
    exact ⟨h1.symm, h1 ▸ h2, h3⟩
  | cons e rest ih =>
    obtain ⟨h1, h2, h3⟩ := h
    obtain ⟨g1, g2, g3⟩ := ih h3
    exact ⟨⟨h1, h2, g1⟩, g2, g3⟩

theorem chain_mem_bounds {s n : Nat} {m : UMap} (h : Chain s m n) {f : Segment}
    (he : f ∈ m) : s ≤ f.start ∧ f.stop ≤ n := by
  induction m generalizing s with
  | nil => cases he
  | cons a rest ih =>
    obtain ⟨h1, h2, h3⟩ := h
    rcases List.mem_cons.mp he with rfl | he
    · exact ⟨Nat.le_of_eq h1.symm, h3.lower_le⟩
    · obtain ⟨g1, g2⟩ := ih h3 he
      exact ⟨Nat.le_trans (Nat.le_of_lt h2) g1, g2⟩

theorem wchain_mem_bounds {s n : Nat} {m : UMap} (h : WChain s m n) {f : Segment}
    (he : f ∈ m) : s ≤ f.start ∧ f.stop ≤ n := by
  induction m generalizing s with
  | nil => cases he
  | cons a rest ih =>
    obtain ⟨h1, h2, h3⟩ := h
    rcases List.mem_cons.mp he with rfl | he
    · exact ⟨Nat.le_of_eq h1.symm, h3.wle⟩
    · obtain ⟨g1, g2⟩ := ih h3 he
      exact ⟨Nat.le_trans h2 g1, g2⟩

theorem chain_getLast {s n : Nat} {m : UMap} (h : Chain s m n) (hne : m ≠ []) :
    ∃ l, m.getLast? = some l ∧ l.stop = n := by
  induction m generalizing s with
  | nil => exact absurd rfl hne
  | cons e rest ih =>
    obtain ⟨-, -, h3⟩ := h
    cases rest with
    | nil => exact ⟨e, rfl, h3⟩
    | cons b rest2 =>
      obtain ⟨l, hl, hstop⟩ := ih h3 (by simp)
      exact ⟨l, by rwa [List.getLast?_cons_cons], hstop⟩

-- statusAt lemmas.

theorem statusAt_append_of_lt {s t : Nat} {A : UMap} (hA : WChain s A t) {x : Nat}
    (hsx : s ≤ x) (hxt : x < t) (B : UMap) :
    statusAt (A ++ B) x = statusAt A x := by
  induction A generalizing s with
  | nil => cases hA; exact absurd hxt (Nat.not_lt.mpr hsx)
  | cons e rest ih =>
    obtain ⟨h1, h2, h3⟩ := hA
    by_cases hx : e.start ≤ x ∧ x < e.stop
    · simp [statusAt, hx]
    · have hge : e.stop ≤ x := by
        rcases Nat.lt_or_ge x e.stop with hlt | hge
        · exact absurd ⟨h1 ▸ hsx, hlt⟩ hx
        · exact hge
      simp only [List.cons_append, statusAt, if_neg hx]
      exact ih h3 hge

theorem statusAt_append_of_ge {s t : Nat} {A : UMap} (hA : WChain s A t) {x : Nat}
    (hxt : t ≤ x) (B : UMap) :
    statusAt (A ++ B) x = statusAt B x := by
  induction A generalizing s with
  | nil => rfl
  | cons e rest ih =>
    obtain ⟨h1, h2, h3⟩ := hA
    have hstop : e.stop ≤ x := Nat.le_trans h3.wle hxt
    have hx : ¬ (e.start ≤ x ∧ x < e.stop) := by
      rintro ⟨-, hlt⟩
      exact absurd hlt (Nat.not_lt.mpr hstop)
    simp only [List.cons_append, statusAt, if_neg hx]
    exact ih h3

theorem statusAt_isSome {s n : Nat} {m : UMap} (h : WChain s m n) {x : Nat}
    (hsx : s ≤ x) (hxn : x < n) : (statusAt m x).isSome := by
  induction m generalizing s with
  | nil => cases h; exact absurd hxn (Nat.not_lt.mpr hsx)
  | cons e rest ih =>
    obtain ⟨h1, h2, h3⟩ := h
    by_cases hx : e.start ≤ x ∧ x < e.stop
    · simp [statusAt, hx]
    · have hge : e.stop ≤ x := by
        rcases Nat.lt_or_ge x e.stop with hlt | hge
        · exact absurd ⟨h1 ▸ hsx, hlt⟩ hx
        · exact hge
      simp only [statusAt, if_neg hx]
      exact ih h3 hge

-- clean_zero_sized: semantic preservation and strictness.

theorem cleanZeroSized_chain {s n : Nat} {m : UMap} (h : WChain s m n) :
    Chain s (cleanZeroSized m) n := by
  induction m generalizing s with
  | nil => exact h
  | cons e rest ih =>
    obtain ⟨h1, h2, h3⟩ := h
    by_cases hz : e.start = e.stop
    · have : cleanZeroSized (e :: rest) = cleanZeroSized rest := by
        simp [cleanZeroSized, hz]
      rw [this]
      have : s = e.stop := h1 ▸ hz
      exact this ▸ ih h3
    · have : cleanZeroSized (e :: rest) = e :: cleanZeroSized rest := by
        simp [cleanZeroSized, hz]
      rw [this]
      exact ⟨h1, Nat.lt_of_le_of_ne h2 (h1 ▸ hz), ih h3⟩

theorem cleanZeroSized_statusAt (m : UMap) (x : Nat) :
    statusAt (cleanZeroSized m) x = statusAt m x := by
  induction m with
  | nil => rfl
  | cons e rest ih =>
    by_cases hz : e.start = e.stop
    · have hnot : ¬ (e.start ≤ x ∧ x < e.stop) := by
        rintro ⟨ha, hb⟩
        exact absurd (Nat.lt_of_le_of_lt ha hb) (by rw [hz]; exact Nat.lt_irrefl _)
      have : cleanZeroSized (e :: rest) = cleanZeroSized rest := by
        simp [cleanZeroSized, hz]
      rw [this, ih]
      simp [statusAt, hnot]
    · have : cleanZeroSized (e :: rest) = e :: cleanZeroSized rest := by
        simp [cleanZeroSized, hz]
      rw [this]
      simp only [statusAt]
      rw [ih]

-- merge_neighbours: chain and statusAt preservation, and the adjacency
-- invariant it establishes.

theorem mergeFuel_chain {n : Nat} : ∀ (f : Nat) {s : Nat} (m : UMap), Chain s m n →
    Chain s (mergeFuel f m) n := by
  intro f
  induction f with
  | zero => intro s m h; exact h
  | succ f ih =>
    intro s m h
    match m with
    | [] => exact h
    | [a] => exact h
    | a :: b :: rest =>
      obtain ⟨h1, h2, h3⟩ := h
      obtain ⟨g1, g2, g3⟩ := h3
      by_cases hst : a.status = b.status
      · simp only [mergeFuel, if_pos hst]
        exact ih _ ⟨h1, Nat.lt_of_lt_of_le h2 (Nat.le_of_lt g2), g3⟩
      · simp only [mergeFuel, if_neg hst]
        have := ih (b :: rest) ⟨g1, g2, g3⟩
        exact ⟨h1, h2, g1 ▸ this⟩

theorem mergeFuel_statusAt {n : Nat} : ∀ (f : Nat) {s : Nat} (m : UMap), Chain s m n →
    ∀ x, statusAt (mergeFuel f m) x = statusAt m x := by
  intro f
  induction f with
  | zero => intro s m _ x; rfl
  | succ f ih =>
    intro s m h x
    match m with
    | [] => rfl
    | [a] => rfl
    | a :: b :: rest =>
      obtain ⟨h1, h2, h3⟩ := h
      obtain ⟨g1, g2, g3⟩ := h3
      by_cases hst : a.status = b.status
      · simp only [mergeFuel, if_pos hst]
        have hch : Chain s ({ a with stop := b.stop } :: rest) n :=
          ⟨h1, Nat.lt_of_lt_of_le h2 (Nat.le_of_lt g2), g3⟩
        rw [ih _ hch x]
        simp only [statusAt]
        by_cases hx1 : a.start ≤ x ∧ x < a.stop
        · have : a.start ≤ x ∧ x < b.stop :=
            ⟨hx1.1, Nat.lt_of_lt_of_le hx1.2 (Nat.le_of_lt g2)⟩
          simp [this, hx1]
        · by_cases hx2 : b.start ≤ x ∧ x < b.stop
          · have haux : a.start ≤ x := by
              rw [h1]
              exact Nat.le_trans (Nat.le_trans (Nat.le_of_lt h2) (Nat.le_of_eq g1.symm)) hx2.1
            have : a.start ≤ x ∧ x < b.stop := ⟨haux, hx2.2⟩
            simp [this, hx2, hst]
          · have : ¬ (a.start ≤ x ∧ x < b.stop) := by
              rintro ⟨ha, hb⟩
              rcases Nat.lt_or_ge x a.stop with hlt | hge
              · exact hx1 ⟨ha, hlt⟩
              · exact hx2 ⟨g1 ▸ hge, hb⟩
            simp [this, hx1, hx2]
      · simp only [mergeFuel, if_neg hst]
        simp only [statusAt]
        rw [ih (b :: rest) ⟨g1, g2, g3⟩ x]
        simp only [statusAt]

theorem mergeFuel_head (f : Nat) (b : Segment) (rest : UMap) :
    ∃ h t, mergeFuel f (b :: rest) = h :: t ∧ h.status = b.status ∧ h.start = b.start := by
  induction f generalizing b rest with
  | zero => exact ⟨b, rest, rfl, rfl, rfl⟩
  | succ f ih =>
    match rest with
    | [] => exact ⟨b, [], rfl, rfl, rfl⟩
    | c :: rest2 =>
      by_cases hst : b.status = c.status
      · simp only [mergeFuel, if_pos hst]
        obtain ⟨h, t, he, hs, hst2⟩ := ih { b with stop := c.stop } rest2
        exact ⟨h, t, he, hs, hst2⟩
      · simp only [mergeFuel, if_neg hst]
        exact ⟨b, _, rfl, rfl, rfl⟩

theorem mergeFuel_alt : ∀ (f : Nat) (m : UMap), m.length ≤ f → Alt (mergeFuel f m) := by
  intro f
  induction f with
  | zero =>
    intro m hm
    have : m = [] := List.length_eq_zero.mp (Nat.le_zero.mp hm)
    subst this; trivial
  | succ f ih =>
    intro m hm
    match m with
    | [] => trivial
    | [a] => trivial
    | a :: b :: rest =>
      simp only [List.length_cons] at hm
      by_cases hst : a.status = b.status
      · simp only [mergeFuel, if_pos hst]
        exact ih _ (by simpa using Nat.le_of_succ_le_succ hm)
      · simp only [mergeFuel, if_neg hst]
        obtain ⟨h, t, he, hs, -⟩ := mergeFuel_head f b rest
        rw [he]
        have halt : Alt (h :: t) := by
          rw [← he]
          exact ih _ (by simpa using Nat.le_of_succ_le_succ hm)
        exact ⟨by rw [hs]; exact hst, halt⟩

-- Locating the segments containing the start and the end of a new segment.

theorem chain_locate_start {s n : Nat} {m : UMap} (h : Chain s m n) {ns : Nat}
    (hs : s ≤ ns) (hn : ns < n) :
    ∃ A S B, m = A ++ S :: B ∧ (∀ a ∈ A, a.stop ≤ ns) ∧
      S.start ≤ ns ∧ ns < S.stop ∧ Chain s A S.start ∧ S.start < S.stop ∧
      Chain S.stop B n := by
  induction m generalizing s with
  | nil => cases h; exact absurd hn (Nat.not_lt.mpr hs)
  | cons e rest ih =>
    obtain ⟨h1, h2, h3⟩ := h
    rcases Nat.lt_or_ge ns e.stop with hlt | hge
    · refine ⟨[], e, rest, rfl, ?_, h1 ▸ hs, hlt, h1.symm, h1 ▸ h2, h3⟩
      intro a ha; cases ha
    · obtain ⟨A, S, B, hm, hA, hS1, hS2, hch, hSlt, hchB⟩ := ih h3 hge
      refine ⟨e :: A, S, B, by simp [hm], ?_, hS1, hS2, ⟨h1, h2, hch⟩, hSlt, hchB⟩
      intro a ha
      rcases List.mem_cons.mp ha with rfl | ha
      · exact hge
      · exact hA a ha

theorem chain_locate_end {t n : Nat} {B : UMap} (h : Chain t B n) {ne : Nat}
    (ht : t < ne) (hn : ne ≤ n) :
    ∃ mid E B2, B = mid ++ E :: B2 ∧ (∀ a ∈ mid, a.stop < ne) ∧
      E.start < ne ∧ ne ≤ E.stop ∧ Chain t mid E.start ∧ E.start < E.stop ∧
      Chain E.stop B2 n := by
  induction B generalizing t with
  | nil => cases h; exact absurd (Nat.lt_of_lt_of_le ht hn) (Nat.lt_irrefl _)
  | cons e rest ih =>
    obtain ⟨h1, h2, h3⟩ := h
    rcases le_or_lt ne e.stop with hle | hgt
    · refine ⟨[], e, rest, rfl, ?_, h1 ▸ ht, hle, h1.symm, h1 ▸ h2, h3⟩
      intro a ha; cases ha
    · obtain ⟨mid, E, B2, hm, hmid, hE1, hE2, hch, hElt, hchB⟩ := ih h3 hgt
      refine ⟨e :: mid, E, B2, by simp [hm], ?_, hE1, hE2, ⟨h1, h2, hch⟩, hElt, hchB⟩
      intro a ha
      rcases List.mem_cons.mp ha with rfl | ha
      · exact hgt
      · exact hmid a ha

-- findIdx? with an accumulator over a split list.

theorem findIdx_split (p : Segment → Bool) (A : UMap) (S : Segment) (B : UMap)
    (hA : ∀ a ∈ A, p a = false) (hS : p S = true) :
    ∀ i, List.findIdx? p (A ++ S :: B) i = some (i + A.length) := by
  induction A with
  | nil =>
    intro i
    simp [List.findIdx?_cons, hS]
  | cons e rest ih =>
    intro i
    have he : p e = false := hA e (by simp)
    rw [List.cons_append, List.findIdx?_cons, he]
    simp only [Bool.false_eq_true, if_false]
    rw [ih (fun a ha => hA a (by simp [ha])) (i + 1)]
    simp only [List.length_cons]
    congr 1
    omega

-- Closed forms for the surgery helpers around a decomposition.

theorem removeLoop_closed (X Z : UMap) : ∀ (Y : UMap),
    removeLoop (X ++ Y ++ Z) X.length Y.length = X ++ Z := by
  intro Y
  induction Y generalizing Z with
  | nil => simp [removeLoop]
  | cons y Y2 ih =>
    have hstep : removeAt (X ++ (y :: Y2) ++ Z) X.length = X ++ Y2 ++ Z := by
      unfold removeAt
      have h1 : (X ++ (y :: Y2) ++ Z).take X.length = X := by
        rw [List.append_assoc]
        exact List.take_left X _
      have h2 : (X ++ (y :: Y2) ++ Z).drop (X.length + 1) = Y2 ++ Z := by
        have : X ++ (y :: Y2) ++ Z = (X ++ [y]) ++ (Y2 ++ Z) := by simp
        rw [this]
        have hlen : (X ++ [y]).length = X.length + 1 := by simp
        rw [← hlen]
        exact List.drop_left _ _
      rw [h1, h2, ← List.append_assoc]
    simp only [List.length_cons, removeLoop, hstep]
    exact ih Z

theorem getElem_split {α : Type} (A : List α) (S : α) (B : List α) :
    (A ++ S :: B)[A.length]? = some S := by
  rw [List.getElem?_append_right (Nat.le_refl _)]
  simp

theorem getElem_split_succ {α : Type} (A : List α) (S E : α) (B : List α) :
    (A ++ S :: E :: B)[A.length + 1]? = some E := by
  have : A ++ S :: E :: B = (A ++ [S]) ++ E :: B := by simp
  rw [this]
  have hlen : (A ++ [S]).length = A.length + 1 := by simp
  rw [← hlen]
  exact getElem_split (A ++ [S]) E B

theorem set_split {α : Type} (A : List α) (S : α) (B : List α) (S2 : α) :
    (A ++ S :: B).set A.length S2 = A ++ S2 :: B := by
  rw [List.set_append_right _ _ (Nat.le_refl _)]
  simp

theorem set_split_succ {α : Type} (A : List α) (S E : α) (B : List α) (E2 : α) :
    (A ++ S :: E :: B).set (A.length + 1) E2 = A ++ S :: E2 :: B := by
  have h1 : A ++ S :: E :: B = (A ++ [S]) ++ E :: B := by simp
  have h2 : A ++ S :: E2 :: B = (A ++ [S]) ++ E2 :: B := by simp
  rw [h1, h2]
  have hlen : (A ++ [S]).length = A.length + 1 := by simp
  rw [← hlen]
  exact set_split (A ++ [S]) E B E2

theorem removeAt_split_succ (A : UMap) (S E : Segment) (B : UMap) :
    removeAt (A ++ S :: E :: B) (A.length + 1) = A ++ S :: B := by
  unfold removeAt
  have h1 : A ++ S :: E :: B = (A ++ [S]) ++ E :: B := by simp
  have h2 : (A ++ S :: E :: B).take (A.length + 1) = A ++ [S] := by
    rw [h1]
    have hlen : (A ++ [S]).length = A.length + 1 := by simp
    rw [← hlen]
    exact List.take_left _ _
  have h3 : (A ++ S :: E :: B).drop (A.length + 1 + 1) = B := by
    have h4 : A ++ S :: E :: B = (A ++ [S, E]) ++ B := by simp
    rw [h4]
    have hlen : (A ++ [S, E]).length = A.length + 1 + 1 := by simp
    rw [← hlen]
    exact List.drop_left _ _
  rw [h2, h3]
  simp

theorem insertAt_split_succ (A : UMap) (S : Segment) (B : UMap) (a : Segment) :
    insertAt (A ++ S :: B) (A.length + 1) a = A ++ S :: a :: B := by
  unfold insertAt
  have h1 : A ++ S :: B = (A ++ [S]) ++ B := by simp
  rw [h1]
  have hlen : (A ++ [S]).length = A.length + 1 := by simp
  rw [← hlen, List.take_left, List.drop_left]
  simp

-- Unfolding addSegment given the values of its scrutinees.

theorem addSegment_eq_split (m : UMap) (ns ne : Nat) (st : AllocStatus) (last : Segment)
    (hlt : ns < ne)
    (hlast : m.getLast? = some last) (hstop : ne ≤ last.stop)
    (si ei : Nat)
    (hfs : m.findIdx? (fun e => decide (ns ≥ e.start) && decide (ns < e.stop)) = some si)
    (hfe : m.findIdx? (fun e => decide (ne > e.start) && decide (ne ≤ e.stop)) = some ei)
    (hnei : ¬ si = ei)
    (S E : Segment) (m1 : UMap) (hm1 : removeLoop m (si + 1) (ei - (si + 1)) = m1)
    (hS : m1[si]? = some S)
    (hE : m1[si + 1]? = some E) :
    addSegment m ⟨ns, ne, st⟩ = some (mergeNeighbours (cleanZeroSized (
      if S.status = E.status then
        if S.status = st then
          removeAt (m1.set si { S with stop := E.stop }) (si + 1)
        else
          insertAt ((m1.set si { S with stop := ns }).set (si + 1)
            { E with start := ne }) (si + 1) ⟨ns, ne, st⟩
      else
        if S.status = st then
          (m1.set si { S with stop := ne }).set (si + 1) { E with start := ne }
        else
          (m1.set si { S with stop := ns }).set (si + 1) { E with start := ns }))) := by
  unfold addSegment
  rw [if_neg (show ¬ (Segment.mk ns ne st).start = (Segment.mk ns ne st).stop by simp; omega)]
  rw [if_neg (show ¬ ¬ (Segment.mk ns ne st).start < (Segment.mk ns ne st).stop by simp; omega)]
  rw [hlast]
  dsimp only
  rw [if_neg (show ¬ ¬ ne ≤ last.stop by simpa using hstop)]
  rw [hfs, hfe]
  dsimp only
  simp only [if_neg hnei, hm1, hS, hE]

theorem addSegment_eq_same (m : UMap) (ns ne : Nat) (st : AllocStatus) (last : Segment)
    (hlt : ns < ne)
    (hlast : m.getLast? = some last) (hstop : ne ≤ last.stop)
    (si : Nat)
    (hfs : m.findIdx? (fun e => decide (ns ≥ e.start) && decide (ns < e.stop)) = some si)
    (hfe : m.findIdx? (fun e => decide (ne > e.start) && decide (ne ≤ e.stop)) = some si)
    (S : Segment) (hS : m[si]? = some S)
    (s e : Segment)
    (hS2 : (insertAt m (si + 1) S)[si]? = some s)
    (hE2 : (insertAt m (si + 1) S)[si + 1]? = some e) :
    addSegment m ⟨ns, ne, st⟩ = some (mergeNeighbours (cleanZeroSized (
      if s.status = e.status then
        if s.status = st then
          removeAt ((insertAt m (si + 1) S).set si { s with stop := e.stop }) (si + 1)
        else
          insertAt (((insertAt m (si + 1) S).set si { s with stop := ns }).set (si + 1)
            { e with start := ne }) (si + 1) ⟨ns, ne, st⟩
      else
        if s.status = st then
          ((insertAt m (si + 1) S).set si { s with stop := ne }).set (si + 1)
            { e with start := ne }
        else
          ((insertAt m (si + 1) S).set si { s with stop := ns }).set (si + 1)
            { e with start := ns }))) := by
  unfold addSegment
  rw [if_neg (show ¬ (Segment.mk ns ne st).start = (Segment.mk ns ne st).stop by simp; omega)]
  rw [if_neg (show ¬ ¬ (Segment.mk ns ne st).start < (Segment.mk ns ne st).stop by simp; omega)]
  rw [hlast]
  dsimp only
  rw [if_neg (show ¬ ¬ ne ≤ last.stop by simpa using hstop)]
  rw [hfs, hfe]
  dsimp only
  rw [if_pos rfl]
  have hm1 : removeLoop m (si + 1) (si - (si + 1)) = m := by
    have : si - (si + 1) = 0 := by omega
    rw [this]
    rfl
  rw [hm1, hS]
  dsimp only
  simp only [hS2, hE2]

-- Packaging: cleaning and merging an intermediate weak chain gives a
-- well-formed map with the same pointwise statuses.

theorem chain_mem_strict {s n : Nat} {m : UMap} (h : Chain s m n) {f : Segment}
    (he : f ∈ m) : f.start < f.stop := by
  induction m generalizing s with
  | nil => cases he
  | cons a rest ih =>
    obtain ⟨h1, h2, h3⟩ := h
    rcases List.mem_cons.mp he with rfl | he
    · exact h1 ▸ h2
    · exact ih h3 he

theorem cleanZeroSized_of_chain {s n : Nat} {m : UMap} (h : Chain s m n) :
    cleanZeroSized m = m := by
  unfold cleanZeroSized
  rw [List.filter_eq_self]
  intro a ha
  have := chain_mem_strict h ha
  simp
  omega

theorem mergeFuel_of_alt : ∀ (f : Nat) (m : UMap), Alt m → mergeFuel f m = m := by
  intro f
  induction f with
  | zero => intro m _; rfl
  | succ f ih =>
    intro m hm
    match m with
    | [] => rfl
    | [a] => rfl
    | a :: b :: rest =>
      obtain ⟨h1, h2⟩ := hm
      simp only [mergeFuel, if_neg h1]
      rw [ih _ h2]

theorem assemble {n : Nat} {m3 : UMap} (hwc : WChain 0 m3 n) :
    Chain 0 (mergeNeighbours (cleanZeroSized m3)) n ∧
    Alt (mergeNeighbours (cleanZeroSized m3)) ∧
    ∀ x, statusAt (mergeNeighbours (cleanZeroSized m3)) x = statusAt m3 x := by
  have hclean : Chain 0 (cleanZeroSized m3) n := cleanZeroSized_chain hwc
  refine ⟨mergeFuel_chain _ _ hclean, mergeFuel_alt _ _ (Nat.le_refl _), ?_⟩
  intro x
  rw [show mergeNeighbours (cleanZeroSized m3) = mergeFuel (cleanZeroSized m3).length
    (cleanZeroSized m3) from rfl]
  rw [mergeFuel_statusAt _ _ hclean x, cleanZeroSized_statusAt]

theorem statusAt_cons_pos {e : Segment} {rest : UMap} {x : Nat}
    (h1 : e.start ≤ x) (h2 : x < e.stop) : statusAt (e :: rest) x = some e.status := by
  simp [statusAt, h1, h2]

theorem statusAt_cons_neg {e : Segment} {rest : UMap} {x : Nat}
    (h : ¬ (e.start ≤ x ∧ x < e.stop)) : statusAt (e :: rest) x = statusAt rest x := by
  simp only [statusAt, if_neg h]

theorem alloc_eq_of_ne_of_ne {a b c : AllocStatus} (h1 : a ≠ b) (h2 : a ≠ c) : b = c := by
  cases a <;> cases b <;> cases c <;> first | rfl | exact absurd rfl h1 | exact absurd rfl h2

theorem addSegment_spec {m : UMap} {n : Nat} (hch : Chain 0 m n) (halt : Alt m)
    (ns ne : Nat) (st : AllocStatus) (hlt : ns < ne) (hle : ne ≤ n) :
    ∃ m2, addSegment m ⟨ns, ne, st⟩ = some m2 ∧ Chain 0 m2 n ∧ Alt m2 ∧
      (∀ x, ns ≤ x → x < ne → statusAt m2 x = some st) ∧
      (∀ x, x < ns ∨ ne ≤ x → statusAt m2 x = statusAt m x) := by
  have hn0 : 0 < n := Nat.lt_of_le_of_lt (Nat.zero_le ns) (Nat.lt_of_lt_of_le hlt hle)
  have hmne : m ≠ [] := by
    intro h
    rw [h] at hch
    simp only [Chain] at hch
    omega
  obtain ⟨last, hlast, hlaststop⟩ := chain_getLast hch hmne
  obtain ⟨A, S, B, hm, hA, hS1, hS2, hchA, hSlt, hchB⟩ :=
    chain_locate_start hch (Nat.zero_le ns) (Nat.lt_of_lt_of_le hlt hle)
  have hstop : ne ≤ last.stop := hlaststop ▸ hle
  have hfsA : ∀ a ∈ A, (fun e => decide (ns ≥ e.start) && decide (ns < e.stop)) a = false := by
    intro a ha
    have := hA a ha
    simp only [Bool.and_eq_false_iff, decide_eq_false_iff_not]
    right; omega
  have hfsS : (fun e => decide (ns ≥ e.start) && decide (ns < e.stop)) S = true := by
    simp only [Bool.and_eq_true, decide_eq_true_eq]
    exact ⟨hS1, hS2⟩
  have hfs : m.findIdx? (fun e => decide (ns ≥ e.start) && decide (ns < e.stop))
      = some A.length := by
    rw [hm]
    have := findIdx_split _ A S B hfsA hfsS 0
    simpa using this
  by_cases hcase : ne ≤ S.stop
  · -- Case I: start and end in the same segment.
    have hfeA : ∀ a ∈ A, (fun e => decide (ne > e.start) && decide (ne ≤ e.stop)) a = false := by
      intro a ha
      have := hA a ha
      simp only [Bool.and_eq_false_iff, decide_eq_false_iff_not]
      right; omega
    have hfeS : (fun e => decide (ne > e.start) && decide (ne ≤ e.stop)) S = true := by
      simp only [Bool.and_eq_true, decide_eq_true_eq]
      exact ⟨Nat.lt_of_le_of_lt hS1 hlt, hcase⟩
    have hfe : m.findIdx? (fun e => decide (ne > e.start) && decide (ne ≤ e.stop))
        = some A.length := by
      rw [hm]
      have := findIdx_split _ A S B hfeA hfeS 0
      simpa using this
    have hgetS : m[A.length]? = some S := by
      rw [hm]; exact getElem_split A S B
    have m2ins : insertAt m (A.length + 1) S = A ++ S :: S :: B := by
      rw [hm]; exact insertAt_split_succ A S B S
    have hS2 : (insertAt m (A.length + 1) S)[A.length]? = some S := by
      rw [m2ins]; exact getElem_split A S (S :: B)
    have hE2 : (insertAt m (A.length + 1) S)[A.length + 1]? = some S := by
      rw [m2ins]; exact getElem_split_succ A S S B
    have heq := addSegment_eq_same m ns ne st last hlt hlast hstop A.length hfs hfe
      S hgetS S S hS2 hE2
    rw [if_pos rfl] at heq
    by_cases hst : S.status = st
    · rw [if_pos hst] at heq
      have hred : removeAt ((insertAt m (A.length + 1) S).set A.length
          { S with stop := S.stop }) (A.length + 1) = m := by
        rw [m2ins]
        have : ({ S with stop := S.stop } : Segment) = S := rfl
        rw [this, set_split A S (S :: B) S, removeAt_split_succ A S S B, hm]
      rw [hred, cleanZeroSized_of_chain hch, show mergeNeighbours m = mergeFuel m.length m
        from rfl, mergeFuel_of_alt _ _ halt] at heq
      refine ⟨m, heq, hch, halt, ?_, fun x _ => rfl⟩
      intro x hx1 hx2
      rw [hm]
      rw [statusAt_append_of_ge hchA.toWChain (Nat.le_trans hS1 hx1)]
      rw [statusAt_cons_pos (Nat.le_trans hS1 hx1) (Nat.lt_of_lt_of_le hx2 hcase), hst]
    · rw [if_neg hst] at heq
      have hred : insertAt (((insertAt m (A.length + 1) S).set A.length
            { S with stop := ns }).set (A.length + 1) { S with start := ne })
            (A.length + 1) (⟨ns, ne, st⟩ : Segment)
          = A ++ ⟨S.start, ns, S.status⟩ :: ⟨ns, ne, st⟩ :: ⟨ne, S.stop, S.status⟩ :: B := by
        rw [m2ins, set_split A S (S :: B) ⟨S.start, ns, S.status⟩,
          set_split_succ A ⟨S.start, ns, S.status⟩ S B ⟨ne, S.stop, S.status⟩,
          insertAt_split_succ A ⟨S.start, ns, S.status⟩ (⟨ne, S.stop, S.status⟩ :: B)
            ⟨ns, ne, st⟩]
      rw [hred] at heq
      have hwc : WChain 0 (A ++ ⟨S.start, ns, S.status⟩ :: ⟨ns, ne, st⟩ ::
          ⟨ne, S.stop, S.status⟩ :: B) n :=
        wchain_glue hchA.toWChain ⟨rfl, hS1, rfl, Nat.le_of_lt hlt, rfl, hcase,
          hchB.toWChain⟩
      obtain ⟨hc2, ha2, hsa⟩ := assemble hwc
      refine ⟨_, heq, hc2, ha2, ?_, ?_⟩
      · intro x hx1 hx2
        rw [hsa x]
        rw [statusAt_append_of_ge hchA.toWChain (Nat.le_trans hS1 hx1)]
        rw [statusAt_cons_neg (show ¬ (S.start ≤ x ∧ x < ns) by omega)]
        exact statusAt_cons_pos (show ns ≤ x from hx1) (show x < ne from hx2)
      · intro x hx
        rw [hsa x, hm]
        rcases hx with hxl | hxr
        · by_cases hxa : x < S.start
          · rw [statusAt_append_of_lt hchA.toWChain (Nat.zero_le x) hxa,
              statusAt_append_of_lt hchA.toWChain (Nat.zero_le x) hxa]
          · have hxa2 : S.start ≤ x := Nat.le_of_not_lt hxa
            rw [statusAt_append_of_ge hchA.toWChain hxa2,
              statusAt_append_of_ge hchA.toWChain hxa2]
            rw [statusAt_cons_pos (e := ⟨S.start, ns, S.status⟩)
              (show S.start ≤ x from hxa2) (show x < ns from hxl)]
            rw [statusAt_cons_pos (e := S) hxa2 (show x < S.stop by omega)]
        · have hxs : S.start ≤ x := by omega
          rw [statusAt_append_of_ge hchA.toWChain hxs,
            statusAt_append_of_ge hchA.toWChain hxs]
          by_cases hxb : x < S.stop
          · rw [statusAt_cons_neg (show ¬ (S.start ≤ x ∧ x < ns) by omega)]
            rw [statusAt_cons_neg (show ¬ (ns ≤ x ∧ x < ne) by omega)]
            rw [statusAt_cons_pos (e := ⟨ne, S.stop, S.status⟩)
              (show ne ≤ x from hxr) (show x < S.stop from hxb)]
            rw [statusAt_cons_pos (e := S) hxs hxb]
          · rw [statusAt_cons_neg (show ¬ (S.start ≤ x ∧ x < ns) by omega)]
            rw [statusAt_cons_neg (show ¬ (ns ≤ x ∧ x < ne) by omega)]
            rw [statusAt_cons_neg (show ¬ (ne ≤ x ∧ x < S.stop) by omega)]
            rw [statusAt_cons_neg (show ¬ (S.start ≤ x ∧ x < S.stop) by omega)]
  · -- Case II: the end lies in a later segment.
    obtain ⟨mid, E, B2, hmB, hmid, hEgt, hEge, hchMid, hElt, hchB2⟩ :=
      chain_locate_end hchB (show S.stop < ne by omega) hle
    have hm2 : m = A ++ S :: (mid ++ E :: B2) := by rw [hm, hmB]
    have hSE : S.stop ≤ E.start := hchMid.lower_le
    have hfeA2 : ∀ a ∈ A ++ S :: mid,
        (fun e => decide (ne > e.start) && decide (ne ≤ e.stop)) a = false := by
      intro a ha
      simp only [Bool.and_eq_false_iff, decide_eq_false_iff_not]
      right
      rcases List.mem_append.mp ha with ha | ha
      · have := hA a ha; omega
      · rcases List.mem_cons.mp ha with rfl | ha
        · omega
        · have := hmid a ha; omega
    have hfeE : (fun e => decide (ne > e.start) && decide (ne ≤ e.stop)) E = true := by
      simp only [Bool.and_eq_true, decide_eq_true_eq]
      exact ⟨hEgt, hEge⟩
    have hfe : m.findIdx? (fun e => decide (ne > e.start) && decide (ne ≤ e.stop))
        = some (A.length + 1 + mid.length) := by
      rw [hm2, show A ++ S :: (mid ++ E :: B2) = (A ++ S :: mid) ++ E :: B2 by simp]
      have := findIdx_split _ (A ++ S :: mid) E B2 hfeA2 hfeE 0
      rw [this]
      congr 1
      simp
      omega
    have hnei : ¬ A.length = A.length + 1 + mid.length := by omega
    have hm1 : removeLoop m (A.length + 1) (A.length + 1 + mid.length - (A.length + 1))
        = A ++ S :: E :: B2 := by
      have hcount : A.length + 1 + mid.length - (A.length + 1) = mid.length := by omega
      rw [hcount, hm2,
        show A ++ S :: (mid ++ E :: B2) = (A ++ [S]) ++ mid ++ (E :: B2) by simp,
        show A.length + 1 = (A ++ [S]).length by simp,
        removeLoop_closed (A ++ [S]) (E :: B2) mid]
      simp
    have hgS : (A ++ S :: E :: B2)[A.length]? = some S := getElem_split A S (E :: B2)
    have hgE : (A ++ S :: E :: B2)[A.length + 1]? = some E := getElem_split_succ A S E B2
    have heq := addSegment_eq_split m ns ne st last hlt hlast hstop
      A.length (A.length + 1 + mid.length) hfs hfe hnei S E (A ++ S :: E :: B2) hm1 hgS hgE
    -- Facts about the old map used by the frame conditions.
    have rhsA : ∀ x, x < S.start → statusAt m x = statusAt A x := by
      intro x hx
      rw [hm2, statusAt_append_of_lt hchA.toWChain (Nat.zero_le x) hx]
    have rhsS : ∀ x, S.start ≤ x → x < S.stop → statusAt m x = some S.status := by
      intro x h1 h2
      rw [hm2, statusAt_append_of_ge hchA.toWChain h1, statusAt_cons_pos (e := S) h1 h2]
    have rhsE : ∀ x, E.start ≤ x → x < E.stop → statusAt m x = some E.status := by
      intro x h1 h2
      rw [hm2, statusAt_append_of_ge hchA.toWChain (by omega),
        statusAt_cons_neg (e := S) (by omega),
        statusAt_append_of_ge hchMid.toWChain h1, statusAt_cons_pos (e := E) h1 h2]
    have rhsB2 : ∀ x, E.stop ≤ x → statusAt m x = statusAt B2 x := by
      intro x h1
      rw [hm2, statusAt_append_of_ge hchA.toWChain (by omega),
        statusAt_cons_neg (e := S) (by omega),
        statusAt_append_of_ge hchMid.toWChain (by omega),
        statusAt_cons_neg (e := E) (by omega)]
    by_cases hse : S.status = E.status
    · rw [if_pos hse] at heq
      by_cases hst : S.status = st
      · rw [if_pos hst] at heq
        rw [set_split A S (E :: B2) ⟨S.start, E.stop, S.status⟩,
          removeAt_split_succ A ⟨S.start, E.stop, S.status⟩ E B2] at heq
        have hwc : WChain 0 (A ++ ⟨S.start, E.stop, S.status⟩ :: B2) n :=
          wchain_glue hchA.toWChain ⟨rfl, show S.start ≤ E.stop by omega, hchB2.toWChain⟩
        obtain ⟨hc2, ha2, hsa⟩ := assemble hwc
        refine ⟨_, heq, hc2, ha2, ?_, ?_⟩
        · intro x hx1 hx2
          rw [hsa x, statusAt_append_of_ge hchA.toWChain (show S.start ≤ x by omega),
            statusAt_cons_pos (e := ⟨S.start, E.stop, S.status⟩)
              (show S.start ≤ x by omega) (show x < E.stop by omega), hst]
        · intro x hx
          rw [hsa x]
          rcases hx with hxl | hxr
          · by_cases hxa : x < S.start
            · rw [statusAt_append_of_lt hchA.toWChain (Nat.zero_le x) hxa, rhsA x hxa]
            · rw [statusAt_append_of_ge hchA.toWChain (show S.start ≤ x by omega),
                statusAt_cons_pos (e := ⟨S.start, E.stop, S.status⟩)
                  (show S.start ≤ x by omega) (show x < E.stop by omega),
                rhsS x (by omega) (by omega)]
          · by_cases hxb : x < E.stop
            · rw [statusAt_append_of_ge hchA.toWChain (show S.start ≤ x by omega),
                statusAt_cons_pos (e := ⟨S.start, E.stop, S.status⟩)
                  (show S.start ≤ x by omega) (show x < E.stop from hxb),
                rhsE x (by omega) hxb, hse]
            · rw [statusAt_append_of_ge hchA.toWChain (show S.start ≤ x by omega),
                statusAt_cons_neg (e := ⟨S.start, E.stop, S.status⟩)
                  (show ¬ (S.start ≤ x ∧ x < E.stop) by omega),
                rhsB2 x (by omega)]
      · rw [if_neg hst] at heq
        rw [set_split A S (E :: B2) ⟨S.start, ns, S.status⟩,
          set_split_succ A ⟨S.start, ns, S.status⟩ E B2 ⟨ne, E.stop, E.status⟩,
          insertAt_split_succ A ⟨S.start, ns, S.status⟩ (⟨ne, E.stop, E.status⟩ :: B2)
            ⟨ns, ne, st⟩] at heq
        have hwc : WChain 0 (A ++ ⟨S.start, ns, S.status⟩ :: ⟨ns, ne, st⟩ ::
            ⟨ne, E.stop, E.status⟩ :: B2) n :=
          wchain_glue hchA.toWChain ⟨rfl, hS1, rfl, show ns ≤ ne by omega, rfl,
            show ne ≤ E.stop by omega, hchB2.toWChain⟩
        obtain ⟨hc2, ha2, hsa⟩ := assemble hwc
        refine ⟨_, heq, hc2, ha2, ?_, ?_⟩
        · intro x hx1 hx2
          rw [hsa x, statusAt_append_of_ge hchA.toWChain (show S.start ≤ x by omega),
            statusAt_cons_neg (e := ⟨S.start, ns, S.status⟩)
              (show ¬ (S.start ≤ x ∧ x < ns) by omega),
            statusAt_cons_pos (e := ⟨ns, ne, st⟩)
              (show ns ≤ x by omega) (show x < ne by omega)]
        · intro x hx
          rw [hsa x]
          rcases hx with hxl | hxr
          · by_cases hxa : x < S.start
            · rw [statusAt_append_of_lt hchA.toWChain (Nat.zero_le x) hxa, rhsA x hxa]
            · rw [statusAt_append_of_ge hchA.toWChain (show S.start ≤ x by omega),
                statusAt_cons_pos (e := ⟨S.start, ns, S.status⟩)
                  (show S.start ≤ x by omega) (show x < ns by omega),
                rhsS x (by omega) (by omega)]
          · by_cases hxb : x < E.stop
            · rw [statusAt_append_of_ge hchA.toWChain (show S.start ≤ x by omega),
                statusAt_cons_neg (e := ⟨S.start, ns, S.status⟩)
                  (show ¬ (S.start ≤ x ∧ x < ns) by omega),
                statusAt_cons_neg (e := ⟨ns, ne, st⟩)
                  (show ¬ (ns ≤ x ∧ x < ne) by omega),
                statusAt_cons_pos (e := ⟨ne, E.stop, E.status⟩)
                  (show ne ≤ x by omega) (show x < E.stop from hxb),
                rhsE x (by omega) hxb]
            · rw [statusAt_append_of_ge hchA.toWChain (show S.start ≤ x by omega),
                statusAt_cons_neg (e := ⟨S.start, ns, S.status⟩)
                  (show ¬ (S.start ≤ x ∧ x < ns) by omega),
                statusAt_cons_neg (e := ⟨ns, ne, st⟩)
                  (show ¬ (ns ≤ x ∧ x < ne) by omega),
                statusAt_cons_neg (e := ⟨ne, E.stop, E.status⟩)
                  (show ¬ (ne ≤ x ∧ x < E.stop) by omega),
                rhsB2 x (by omega)]
    · rw [if_neg hse] at heq
      by_cases hst : S.status = st
      · rw [if_pos hst] at heq
        rw [set_split A S (E :: B2) ⟨S.start, ne, S.status⟩,
          set_split_succ A ⟨S.start, ne, S.status⟩ E B2 ⟨ne, E.stop, E.status⟩] at heq
        have hwc : WChain 0 (A ++ ⟨S.start, ne, S.status⟩ ::
            ⟨ne, E.stop, E.status⟩ :: B2) n :=
          wchain_glue hchA.toWChain ⟨rfl, show S.start ≤ ne by omega, rfl,
            show ne ≤ E.stop by omega, hchB2.toWChain⟩
        obtain ⟨hc2, ha2, hsa⟩ := assemble hwc
        refine ⟨_, heq, hc2, ha2, ?_, ?_⟩
        · intro x hx1 hx2
          rw [hsa x, statusAt_append_of_ge hchA.toWChain (show S.start ≤ x by omega),
            statusAt_cons_pos (e := ⟨S.start, ne, S.status⟩)
              (show S.start ≤ x by omega) (show x < ne by omega), hst]
        · intro x hx
          rw [hsa x]
          rcases hx with hxl | hxr
          · by_cases hxa : x < S.start
            · rw [statusAt_append_of_lt hchA.toWChain (Nat.zero_le x) hxa, rhsA x hxa]
            · rw [statusAt_append_of_ge hchA.toWChain (show S.start ≤ x by omega),
                statusAt_cons_pos (e := ⟨S.start, ne, S.status⟩)
                  (show S.start ≤ x by omega) (show x < ne by omega),
                rhsS x (by omega) (by omega)]
          · by_cases hxb : x < E.stop
            · rw [statusAt_append_of_ge hchA.toWChain (show S.start ≤ x by omega),
                statusAt_cons_neg (e := ⟨S.start, ne, S.status⟩)
                  (show ¬ (S.start ≤ x ∧ x < ne) by omega),
                statusAt_cons_pos (e := ⟨ne, E.stop, E.status⟩)
                  (show ne ≤ x by omega) (show x < E.stop from hxb),
                rhsE x (by omega) hxb]
            · rw [statusAt_append_of_ge hchA.toWChain (show S.start ≤ x by omega),
                statusAt_cons_neg (e := ⟨S.start, ne, S.status⟩)
                  (show ¬ (S.start ≤ x ∧ x < ne) by omega),
                statusAt_cons_neg (e := ⟨ne, E.stop, E.status⟩)
                  (show ¬ (ne ≤ x ∧ x < E.stop) by omega),
                rhsB2 x (by omega)]
      · rw [if_neg hst] at heq
        have hEst : E.status = st := alloc_eq_of_ne_of_ne hse hst
        rw [set_split A S (E :: B2) ⟨S.start, ns, S.status⟩,
          set_split_succ A ⟨S.start, ns, S.status⟩ E B2 ⟨ns, E.stop, E.status⟩] at heq
        have hwc : WChain 0 (A ++ ⟨S.start, ns, S.status⟩ ::
            ⟨ns, E.stop, E.status⟩ :: B2) n :=
          wchain_glue hchA.toWChain ⟨rfl, hS1, rfl, show ns ≤ E.stop by omega,
            hchB2.toWChain⟩
        obtain ⟨hc2, ha2, hsa⟩ := assemble hwc
        refine ⟨_, heq, hc2, ha2, ?_, ?_⟩
        · intro x hx1 hx2
          rw [hsa x, statusAt_append_of_ge hchA.toWChain (show S.start ≤ x by omega),
            statusAt_cons_neg (e := ⟨S.start, ns, S.status⟩)
              (show ¬ (S.start ≤ x ∧ x < ns) by omega),
            statusAt_cons_pos (e := ⟨ns, E.stop, E.status⟩)
              (show ns ≤ x by omega) (show x < E.stop by omega), hEst]
        · intro x hx
          rw [hsa x]
          rcases hx with hxl | hxr
          · by_cases hxa : x < S.start
            · rw [statusAt_append_of_lt hchA.toWChain (Nat.zero_le x) hxa, rhsA x hxa]
            · rw [statusAt_append_of_ge hchA.toWChain (show S.start ≤ x by omega),
                statusAt_cons_pos (e := ⟨S.start, ns, S.status⟩)
                  (show S.start ≤ x from Nat.le_of_not_lt hxa) (show x < ns by omega),
                rhsS x (by omega) (by omega)]
          · by_cases hxb : x < E.stop
            · rw [statusAt_append_of_ge hchA.toWChain (show S.start ≤ x by omega),
                statusAt_cons_neg (e := ⟨S.start, ns, S.status⟩)
                  (show ¬ (S.start ≤ x ∧ x < ns) by omega),
                statusAt_cons_pos (e := ⟨ns, E.stop, E.status⟩)
                  (show ns ≤ x by omega) (show x < E.stop from hxb),
                rhsE x (by omega) hxb]
            · rw [statusAt_append_of_ge hchA.toWChain (show S.start ≤ x by omega),
                statusAt_cons_neg (e := ⟨S.start, ns, S.status⟩)
                  (show ¬ (S.start ≤ x ∧ x < ns) by omega),
                statusAt_cons_neg (e := ⟨ns, E.stop, E.status⟩)
                  (show ¬ (ns ≤ x ∧ x < E.stop) by omega),
                rhsB2 x (by omega)]

-- update: full functional specification.

theorem chain_ne_nil {m : UMap} {n : Nat} (hch : Chain 0 m n) (hn0 : 0 < n) : m ≠ [] := by
  intro h
  rw [h] at hch
  simp only [Chain] at hch
  omega

theorem update_eq_addSegment {m : UMap} {n : Nat} (hch : Chain 0 m n) (hn0 : 0 < n)
    (start size : Nat) (st : AllocStatus) (hstart : start ≤ n) :
    update m start size st = addSegment m ⟨start, min (start + size) n, st⟩ := by
  obtain ⟨last, hlast, hlstop⟩ := chain_getLast hch (chain_ne_nil hch hn0)
  unfold update
  rw [hlast]
  dsimp only
  rw [if_pos (show start ≤ last.stop by omega)]
  congr 2
  split <;> omega

theorem addSegment_degenerate (m : UMap) (start : Nat) (st : AllocStatus) :
    addSegment m ⟨start, start, st⟩ = some m := by
  unfold addSegment
  rw [if_pos rfl]

theorem update_spec {m : UMap} {n : Nat} (hwf : WFMap m n) (start size : Nat)
    (st : AllocStatus) (hstart : start ≤ n) :
    ∃ m2, update m start size st = some m2 ∧ WFMap m2 n ∧
      (∀ x, start ≤ x → x < min (start + size) n → statusAt m2 x = some st) ∧
      (∀ x, x < start ∨ min (start + size) n ≤ x → statusAt m2 x = statusAt m x) := by
  obtain ⟨hch, halt, hn0⟩ := hwf
  rw [update_eq_addSegment hch hn0 start size st hstart]
  by_cases hdeg : min (start + size) n = start
  · rw [hdeg, addSegment_degenerate]
    refine ⟨m, rfl, ⟨hch, halt, hn0⟩, ?_, fun x _ => rfl⟩
    intro x h1 h2
    omega
  · have hlt : start < min (start + size) n := by omega
    obtain ⟨m2, heq, hc2, ha2, hin, hout⟩ :=
      addSegment_spec hch halt start (min (start + size) n) st hlt (by omega)
    exact ⟨m2, heq, ⟨hc2, ha2, hn0⟩, hin, fun x hx => hout x hx⟩

theorem update_noop {m : UMap} {n : Nat} (hwf : WFMap m n) (start size : Nat)
    (st : AllocStatus) (hstart : start ≤ n) (hdeg : size = 0 ∨ start = n) :
    update m start size st = some m := by
  obtain ⟨hch, halt, hn0⟩ := hwf
  rw [update_eq_addSegment hch hn0 start size st hstart]
  have hmin : min (start + size) n = start := by omega
  rw [hmin, addSegment_degenerate]

theorem update_out_of_bounds {m : UMap} {n : Nat} (hwf : WFMap m n) (start size : Nat)
    (st : AllocStatus) (hstart : n < start) :
    update m start size st = none := by
  obtain ⟨hch, halt, hn0⟩ := hwf
  obtain ⟨last, hlast, hlstop⟩ := chain_getLast hch (chain_ne_nil hch hn0)
  unfold update
  rw [hlast]
  dsimp only
  rw [if_neg (show ¬ start ≤ last.stop by omega)]

-- Sequences of updates preserve the invariant.

theorem applyUpdates_spec {n : Nat} :
    ∀ (calls : List (Nat × Nat × AllocStatus)) {m : UMap}, WFMap m n →
    (∀ c ∈ calls, c.1 ≤ n) →
    ∃ m2, applyUpdates m calls = some m2 ∧ WFMap m2 n := by
  intro calls
  induction calls with
  | nil => exact fun hwf _ => ⟨_, rfl, hwf⟩
  | cons c rest ih =>
    intro m hwf hpre
    obtain ⟨s, sz, st⟩ := c
    obtain ⟨m1, heq, hwf1, -, -⟩ :=
      update_spec hwf s sz st (hpre (s, sz, st) (by simp))
    obtain ⟨m2, heq2, hwf2⟩ := ih hwf1 (fun c hc => hpre c (by simp [hc]))
    refine ⟨m2, ?_, hwf2⟩
    simp only [applyUpdates, heq, heq2]

theorem newMap_wf {n : Nat} (hn : 0 < n) : WFMap (newMap n) n :=
  ⟨⟨rfl, hn, rfl⟩, trivial, hn⟩

-- Indexed reformulations of the invariant, matching the wording of the
-- partition claim.

theorem chain_adjacent {s n : Nat} {m : UMap} (h : Chain s m n) :
    ∀ i a b, m[i]? = some a → m[i + 1]? = some b → a.stop = b.start := by
  induction m generalizing s with
  | nil => intro i a b ha; simp at ha
  | cons e rest ih =>
    intro i a b ha hb
    obtain ⟨h1, h2, h3⟩ := h
    match i with
    | 0 =>
      simp at ha
      match rest, hb with
      | f :: rest2, hb =>
        simp at hb
        obtain ⟨g1, -, -⟩ := h3
        rw [← ha, ← hb, g1]
    | i + 1 =>
      simp only [List.getElem?_cons_succ] at ha hb
      exact ih h3 i a b ha hb

theorem alt_adjacent {m : UMap} (h : Alt m) :
    ∀ i a b, m[i]? = some a → m[i + 1]? = some b → a.status ≠ b.status := by
  induction m with
  | nil => intro i a b ha; simp at ha
  | cons e rest ih =>
    intro i a b ha hb
    match i with
    | 0 =>
      simp at ha
      match rest, hb with
      | f :: rest2, hb =>
        simp at hb
        obtain ⟨h1, h2⟩ := h
        rw [← ha, ← hb]
        exact h1
    | i + 1 =>
      simp only [List.getElem?_cons_succ] at ha hb
      have htail : Alt rest := by
        match rest with
        | [] => trivial
        | f :: rest2 => exact h.2
      exact ih htail i a b ha hb

theorem alt_tail {e : Segment} {rest : UMap} (h : Alt (e :: rest)) : Alt rest := by
  match rest with
  | [] => trivial
  | f :: rest2 => exact h.2

theorem chain_strict_all {s n : Nat} {m : UMap} (h : Chain s m n) :
    ∀ (i : Nat) (a : Segment), m[i]? = some a → a.start < a.stop := by
  intro i a ha
  have hmem : a ∈ m := by
    have := List.getElem?_eq_some.mp ha
    obtain ⟨hi, hval⟩ := this
    exact hval ▸ List.getElem_mem hi
  exact chain_mem_strict h hmem

-- Canonical form: a well-formed map is determined by its pointwise statuses.

theorem chain_canonical {n : Nat} : ∀ {m m2 : UMap} {s : Nat},
    Chain s m n → Alt m → Chain s m2 n → Alt m2 →
    (∀ x, s ≤ x → x < n → statusAt m x = statusAt m2 x) → m = m2 := by
  intro m
  induction m with
  | nil =>
    intro m2 s hch halt hch2 halt2 hpt
    match m2 with
    | [] => rfl
    | b :: rest2 =>
      obtain ⟨g1, g2, g3⟩ := hch2
      have : (0:Nat) = 0 := rfl
      exfalso
      have hsn : s = n := hch
      have := g3.lower_le
      omega
  | cons a rest ih =>
    intro m2 s hch halt hch2 halt2 hpt
    obtain ⟨h1, h2, h3⟩ := hch
    match m2 with
    | [] =>
      exfalso
      have hsn : s = n := hch2
      have := h3.lower_le
      omega
    | b :: rest2 =>
      obtain ⟨g1, g2, g3⟩ := hch2
      have hsn : s < n := Nat.lt_of_lt_of_le h2 h3.lower_le
      have hstatus : a.status = b.status := by
        have := hpt s (Nat.le_refl s) hsn
        rw [statusAt_cons_pos (e := a) (Nat.le_of_eq h1) h2,
          statusAt_cons_pos (e := b) (Nat.le_of_eq g1) g2] at this
        exact Option.some.inj this
      have hstop : a.stop = b.stop := by
        rcases Nat.lt_trichotomy a.stop b.stop with hlt | heq | hgt
        · exfalso
          have hxn : a.stop < n := Nat.lt_of_lt_of_le hlt g3.lower_le
          have hx := hpt a.stop (Nat.le_of_lt h2) hxn
          rw [statusAt_cons_neg (e := a) (by omega)] at hx
          rw [statusAt_cons_pos (e := b) (by omega) hlt] at hx
          match rest, h3, halt, hx with
          | [], h3, _, _ =>
            have : a.stop = n := h3
            omega
          | c :: rest3, h3, halt, hx =>
            obtain ⟨k1, k2, k3⟩ := h3
            rw [statusAt_cons_pos (e := c) (Nat.le_of_eq k1) k2] at hx
            have : c.status = b.status := Option.some.inj hx
            exact halt.1 (this.trans hstatus.symm).symm
        · exact heq
        · exfalso
          have hxn : b.stop < n := Nat.lt_of_lt_of_le hgt h3.lower_le
          have hx := hpt b.stop (Nat.le_of_lt g2) hxn
          rw [statusAt_cons_neg (e := b) (by omega)] at hx
          rw [statusAt_cons_pos (e := a) (by omega) hgt] at hx
          match rest2, g3, halt2, hx with
          | [], g3, _, _ =>
            have : b.stop = n := g3
            omega
          | c :: rest3, g3, halt2, hx =>
            obtain ⟨k1, k2, k3⟩ := g3
            rw [statusAt_cons_pos (e := c) (Nat.le_of_eq k1) k2] at hx
            have : a.status = c.status := Option.some.inj hx
            exact halt2.1 (hstatus.symm.trans this)
      have hab : a = b := by
        have hstart : a.start = b.start := h1.trans g1.symm
        cases a; cases b
        simp only at hstart hstop hstatus
        simp [hstart, hstop, hstatus]
      subst hab
      have hrest : rest = rest2 := by
        apply ih (s := a.stop) h3 (alt_tail halt) (hstop ▸ g3) (alt_tail halt2)
        intro x hx1 hx2
        have := hpt x (by omega) hx2
        rw [statusAt_cons_neg (e := a) (by omega)] at this
        rw [statusAt_cons_neg (e := a) (by omega)] at this
        exact this
      rw [hrest]

-- Claim theorems for the usage map.

/-- C1: for every drive size `N > 0` and every finite sequence of
`update(start, size, status)` calls with `start ≤ N` (the map size stays `N`
throughout, so this is the current map size) applied to `UsageMap::new(N)`,
the resulting segment list partitions `[0, N)` exactly: the first segment
starts at 0, the last ends at `N`, each segment end equals the next start,
no segment is empty, and no two adjacent segments have equal status. -/
theorem usage_map_invariant (N : Nat) (hN : 0 < N)
    (calls : List (Nat × Nat × AllocStatus))
    (hpre : ∀ c ∈ calls, c.1 ≤ N) :
    ∃ m2, applyUpdates (newMap N) calls = some m2 ∧
      (∃ first rest, m2 = first :: rest ∧ first.start = 0) ∧
      (∃ lastSeg, m2.getLast? = some lastSeg ∧ lastSeg.stop = N) ∧
      (∀ (i : Nat) (a b : Segment), m2[i]? = some a → m2[i + 1]? = some b →
        a.stop = b.start) ∧
      (∀ (i : Nat) (a : Segment), m2[i]? = some a → a.start < a.stop) ∧
      (∀ (i : Nat) (a b : Segment), m2[i]? = some a → m2[i + 1]? = some b →
        a.status ≠ b.status) := by
  obtain ⟨m2, heq, hwf⟩ := applyUpdates_spec calls (newMap_wf hN) hpre
  obtain ⟨hch, halt, -⟩ := hwf
  refine ⟨m2, heq, ?_, chain_getLast hch (chain_ne_nil hch hN), chain_adjacent hch,
    chain_strict_all hch, alt_adjacent halt⟩
  obtain ⟨e, rest, rfl⟩ := List.exists_cons_of_ne_nil (chain_ne_nil hch hN)
  exact ⟨e, rest, rfl, hch.1⟩

theorem usage_map_invariant_witness :
    0 < 20 ∧ (∀ c ∈ [((2 : Nat), (9 : Nat), AllocStatus.Used)], c.1 ≤ 20) ∧
    (∃ m2, applyUpdates (newMap 20) [(2, 9, AllocStatus.Used)] = some m2 ∧
      (∃ first rest, m2 = first :: rest ∧ first.start = 0) ∧
      (∃ lastSeg, m2.getLast? = some lastSeg ∧ lastSeg.stop = 20) ∧
      (∀ (i : Nat) (a b : Segment), m2[i]? = some a → m2[i + 1]? = some b →
        a.stop = b.start) ∧
      (∀ (i : Nat) (a : Segment), m2[i]? = some a → a.start < a.stop) ∧
      (∀ (i : Nat) (a b : Segment), m2[i]? = some a → m2[i + 1]? = some b →
        a.status ≠ b.status)) :=
  ⟨by decide, by decide,
    usage_map_invariant 20 (by decide) [(2, 9, AllocStatus.Used)] (by decide)⟩

/-- C2: for a well-formed map of size `N` and a call
`update(start, size, status)` with `start ≤ N`, every byte in
`[start, min(start+size, N))` has the new status afterwards and every byte
outside keeps its previous status; the call is a no-op when the clipped
range is empty (`size = 0` or `start = N`); and a call with `start > N`
fails its precondition (the model returns `none`, the panic). -/
theorem update_functional_spec {m : UMap} {N : Nat} (hwf : WFMap m N)
    (start size : Nat) (st : AllocStatus) :
    (start ≤ N →
      ∃ m2, update m start size st = some m2 ∧
        (∀ x, start ≤ x → x < min (start + size) N → statusAt m2 x = some st) ∧
        (∀ x, x < start ∨ min (start + size) N ≤ x → statusAt m2 x = statusAt m x)) ∧
    (start ≤ N → size = 0 ∨ start = N → update m start size st = some m) ∧
    (N < start → update m start size st = none) := by
  refine ⟨?_, ?_, ?_⟩
  · intro hstart
    obtain ⟨m2, heq, -, hin, hout⟩ := update_spec hwf start size st hstart
    exact ⟨m2, heq, hin, hout⟩
  · intro hstart hdeg
    exact update_noop hwf start size st hstart hdeg
  · intro hstart
    exact update_out_of_bounds hwf start size st hstart

theorem update_functional_spec_witness :
    WFMap (newMap 5) 5 ∧
    ((2 ≤ 5 →
      ∃ m2, update (newMap 5) 2 2 AllocStatus.Used = some m2 ∧
        (∀ x, 2 ≤ x → x < min (2 + 2) 5 → statusAt m2 x = some AllocStatus.Used) ∧
        (∀ x, x < 2 ∨ min (2 + 2) 5 ≤ x →
          statusAt m2 x = statusAt (newMap 5) x)) ∧
    (2 ≤ 5 → 2 = 0 ∨ 2 = 5 → update (newMap 5) 2 2 AllocStatus.Used = some (newMap 5)) ∧
    (5 < 2 → update (newMap 5) 2 2 AllocStatus.Used = none)) :=
  ⟨newMap_wf (by decide),
    update_functional_spec (newMap_wf (by decide)) 2 2 AllocStatus.Used⟩

/-- C9: for every usage map reachable by a sequence of `update` calls from
`UsageMap::new(N)` and every triple `(start, size, status)` with
`start ≤ N` (the map size), performing the update twice in immediate
succession yields the same map as performing it once. -/
theorem update_idempotent {N : Nat} (hN : 0 < N)
    (calls : List (Nat × Nat × AllocStatus)) (hpre : ∀ c ∈ calls, c.1 ≤ N)
    {m : UMap} (hreach : applyUpdates (newMap N) calls = some m)
    (start size : Nat) (st : AllocStatus) (hstart : start ≤ N)
    {m1 m2 : UMap} (h1 : update m start size st = some m1)
    (h2 : update m1 start size st = some m2) :
    m2 = m1 := by
  obtain ⟨m0, heq0, hwf0⟩ := applyUpdates_spec calls (newMap_wf hN) hpre
  have hm0 : m0 = m := by
    rw [heq0] at hreach
    exact Option.some.inj hreach
  subst hm0
  obtain ⟨m1x, heq1, hwf1, hin1, hout1⟩ := update_spec hwf0 start size st hstart
  have hm1 : m1x = m1 := by
    rw [heq1] at h1
    exact Option.some.inj h1
  subst hm1
  obtain ⟨m2x, heq2, hwf2, hin2, hout2⟩ := update_spec hwf1 start size st hstart
  have hm2 : m2x = m2 := by
    rw [heq2] at h2
    exact Option.some.inj h2
  subst hm2
  obtain ⟨hc2, ha2, -⟩ := hwf2
  obtain ⟨hc1, ha1, -⟩ := hwf1
  apply chain_canonical hc2 ha2 hc1 ha1
  intro x hx0 hxn
  by_cases hxin : start ≤ x ∧ x < min (start + size) N
  · rw [hin2 x hxin.1 hxin.2, hin1 x hxin.1 hxin.2]
  · have hxout : x < start ∨ min (start + size) N ≤ x := by omega
    exact hout2 x hxout

theorem update_idempotent_witness :
    0 < 5 ∧ (∀ c ∈ ([] : List (Nat × Nat × AllocStatus)), c.1 ≤ 5) ∧
    applyUpdates (newMap 5) [] = some (newMap 5) ∧ 1 ≤ 5 ∧
    update (newMap 5) 1 2 AllocStatus.Used =
      some ([⟨0, 1, AllocStatus.Free⟩, ⟨1, 3, AllocStatus.Used⟩,
        ⟨3, 5, AllocStatus.Free⟩] : UMap) ∧
    update ([⟨0, 1, AllocStatus.Free⟩, ⟨1, 3, AllocStatus.Used⟩,
        ⟨3, 5, AllocStatus.Free⟩] : UMap) 1 2 AllocStatus.Used =
      some ([⟨0, 1, AllocStatus.Free⟩, ⟨1, 3, AllocStatus.Used⟩,
        ⟨3, 5, AllocStatus.Free⟩] : UMap) ∧
    ([⟨0, 1, AllocStatus.Free⟩, ⟨1, 3, AllocStatus.Used⟩,
        ⟨3, 5, AllocStatus.Free⟩] : UMap) =
      [⟨0, 1, AllocStatus.Free⟩, ⟨1, 3, AllocStatus.Used⟩, ⟨3, 5, AllocStatus.Free⟩] := by
  have h1 : update (newMap 5) 1 2 AllocStatus.Used =
      some ([⟨0, 1, AllocStatus.Free⟩, ⟨1, 3, AllocStatus.Used⟩,
        ⟨3, 5, AllocStatus.Free⟩] : UMap) := rfl
  have h2 : update ([⟨0, 1, AllocStatus.Free⟩, ⟨1, 3, AllocStatus.Used⟩,
        ⟨3, 5, AllocStatus.Free⟩] : UMap) 1 2 AllocStatus.Used =
      some ([⟨0, 1, AllocStatus.Free⟩, ⟨1, 3, AllocStatus.Used⟩,
        ⟨3, 5, AllocStatus.Free⟩] : UMap) := rfl
  refine ⟨by decide, by decide, rfl, by decide, h1, h2, ?_⟩
  exact update_idempotent (N := 5) (by decide) [] (by decide) rfl 1 2
    AllocStatus.Used (by decide) h1 h2

-- ===================================================================
-- e2fs superblock options, group-scanner sparsity rule, block counting
-- (src/filesys/e2fs/mod.rs and src/filesys/e2fs/inode.rs)
-- ===================================================================

/-- The `bs!` macro: block size is `2 ^ (10 + s_log_block_size)`. -/
def bs (logBlockSize : Nat) : Nat :=
  2 ^ (10 + logBlockSize)

/-- The `hilo!` macro, `((hi as u64) << 32) | lo`, on naturals with the low
half a 32-bit field (so the disjoint `or` is an addition). -/
def hilo (hi lo : Nat) : Nat :=
  hi * 2 ^ 32 + lo

/-- `State(u16)` wrapper from `mod.rs`. -/
structure State : Type where
  raw : Nat
deriving DecidableEq, Repr

def State.has_valid (x : State) : Bool := x.raw &&& 0x1 != 0
def State.has_error (x : State) : Bool := x.raw &&& 0x2 != 0
def State.has_orphan (x : State) : Bool := x.raw &&& 0x4 != 0
def State.has_fc_replay (x : State) : Bool := x.raw &&& 0x20 != 0
def State.get_unknown (x : State) : Nat :=
  ((x.raw >>> 6) <<< 6) ||| (x.raw &&& 0x08) ||| (x.raw &&& 0x10)
def State.has_unknown (x : State) : Bool := x.get_unknown != 0

/-- `CompatFeatures(u32)` wrapper (the query methods consumed by the
modelled routines). -/
structure CompatFeatures : Type where
  raw : Nat
deriving DecidableEq, Repr

def CompatFeatures.has_has_journal (x : CompatFeatures) : Bool := x.raw &&& 0x0004 != 0
def CompatFeatures.has_exclude_inode (x : CompatFeatures) : Bool := x.raw &&& 0x0080 != 0
def CompatFeatures.has_exclude_bitmap (x : CompatFeatures) : Bool := x.raw &&& 0x0100 != 0
def CompatFeatures.has_sparse_super2 (x : CompatFeatures) : Bool := x.raw &&& 0x0200 != 0
def CompatFeatures.get_unknown (x : CompatFeatures) : Nat := (x.raw >>> 13) <<< 13
def CompatFeatures.has_unknown (x : CompatFeatures) : Bool := x.get_unknown != 0

/-- `IncompatFeatures(u32)` wrapper. -/
structure IncompatFeatures : Type where
  raw : Nat
deriving DecidableEq, Repr

def IncompatFeatures.has_recover (x : IncompatFeatures) : Bool := x.raw &&& 0x00004 != 0
def IncompatFeatures.has_journal_dev (x : IncompatFeatures) : Bool := x.raw &&& 0x00008 != 0
def IncompatFeatures.has_meta_bg (x : IncompatFeatures) : Bool := x.raw &&& 0x00010 != 0
def IncompatFeatures.has_64bit (x : IncompatFeatures) : Bool := x.raw &&& 0x00080 != 0
def IncompatFeatures.has_dirdata (x : IncompatFeatures) : Bool := x.raw &&& 0x01000 != 0
def IncompatFeatures.has_encrypt (x : IncompatFeatures) : Bool := x.raw &&& 0x10000 != 0
def IncompatFeatures.get_unknown (x : IncompatFeatures) : Nat :=
  ((x.raw >>> 18) <<< 18) ||| (x.raw &&& 0x00020) ||| (x.raw &&& 0x00800)
def IncompatFeatures.has_unknown (x : IncompatFeatures) : Bool := x.get_unknown != 0

/-- `RoCompatFeatures(u32)` wrapper. -/
structure RoCompatFeatures : Type where
  raw : Nat
deriving DecidableEq, Repr

def RoCompatFeatures.has_sparse_super (x : RoCompatFeatures) : Bool := x.raw &&& 0x00001 != 0
def RoCompatFeatures.has_huge_file (x : RoCompatFeatures) : Bool := x.raw &&& 0x00008 != 0
def RoCompatFeatures.has_gdt_csum (x : RoCompatFeatures) : Bool := x.raw &&& 0x00010 != 0
def RoCompatFeatures.has_metadata_csum (x : RoCompatFeatures) : Bool := x.raw &&& 0x00400 != 0
def RoCompatFeatures.has_readonly (x : RoCompatFeatures) : Bool := x.raw &&& 0x01000 != 0
def RoCompatFeatures.has_shared_blocks (x : RoCompatFeatures) : Bool := x.raw &&& 0x04000 != 0
def RoCompatFeatures.get_unknown (x : RoCompatFeatures) : Nat := (x.raw >>> 17) <<< 17
def RoCompatFeatures.has_unknown (x : RoCompatFeatures) : Bool := x.get_unknown != 0

/-- `DefMountOpts(u32)` wrapper. -/
structure DefMountOpts : Type where
  raw : Nat
deriving DecidableEq, Repr

def DefMountOpts.get_unknown (x : DefMountOpts) : Nat :=
  ((x.raw >>> 14) <<< 14) ||| (x.raw &&& 0x080)
def DefMountOpts.has_unknown (x : DefMountOpts) : Bool := x.get_unknown != 0

/-- `Flags(u32)` wrapper (s_flags). -/
structure Flags : Type where
  raw : Nat
deriving DecidableEq, Repr

def Flags.has_fix_snapshot (x : Flags) : Bool := x.raw &&& 0x20 != 0
def Flags.has_fix_exclude (x : Flags) : Bool := x.raw &&& 0x40 != 0
def Flags.get_unknown (x : Flags) : Nat := ((x.raw >>> 7) <<< 7) ||| (x.raw &&& 0x08)
def Flags.has_unknown (x : Flags) : Bool := x.get_unknown != 0

/-- `ErrorPolicy` enum. -/
inductive ErrorPolicy : Type
  | Null | Continue | ReadOnly | Panic
deriving DecidableEq, Repr

/-- `FsCreator` enum: the declared creator operating systems.  Note that
the source declares `Lites` but never constructs it. -/
inductive FsCreator : Type
  | Linux | Hurd | Masix | FreeBSD | Lites
deriving DecidableEq, Repr

/-- `Revision` enum. -/
inductive Revision : Type
  | GoodOld | Dynamic
deriving DecidableEq, Repr

/-- `HashVersion` enum. -/
inductive HashVersion : Type
  | Legacy | HalfMD4 | Tea | LegacyUnsigned | HalfMD4Unsigned | TeaUnsigned | SipHash
deriving DecidableEq, Repr

/-- `EncryptAlgo` enum. -/
inductive EncryptAlgo : Type
  | Null | AES256XTS | AES256GCM | AES256CBC | AES256CTS
deriving DecidableEq, Repr

/-- `DynConfig`. -/
structure DynConfig : Type where
  compat : CompatFeatures
  incompat : IncompatFeatures
  ro_compat : RoCompatFeatures
deriving DecidableEq, Repr

/-- `JournalConfig`. -/
structure JournalConfig : Type where
  def_hash_ver : HashVersion
  def_mount_opts : DefMountOpts
deriving DecidableEq, Repr

/-- `Bit64Config`. -/
structure Bit64Config : Type where
  flags : Flags
  encrypt_algos : Option (List EncryptAlgo)
deriving DecidableEq, Repr

/-- `FsOptions`. -/
structure FsOptions : Type where
  state : State
  error_policy : ErrorPolicy
  fs_creator : FsCreator
  revision : Revision
  dyn_cfg : Option DynConfig
  journal_cfg : Option JournalConfig
  bit64_cfg : Option Bit64Config
deriving DecidableEq, Repr

/-- The fields of the on-disk `SuperBlock` record that the modelled
routines read (the Rust structure has many more, all plain integers). -/
structure SuperBlock : Type where
  s_log_block_size : Nat
  s_state : Nat
  s_errors : Nat
  s_creator_os : Nat
  s_rev_level : Nat
  s_feature_compat : Nat
  s_feature_incompat : Nat
  s_feature_ro_compat : Nat
  s_def_hash_version : Nat
  s_default_mount_opts : Nat
  s_flags : Nat
  s_encrypt_algos : List Nat
  s_backup_bgs : Nat × Nat
deriving DecidableEq, Repr

/-- CLI options consumed by validation (`Config`). -/
structure Config : Type where
  ignore_recovery : Bool
  ignore_readonly : Bool
deriving DecidableEq, Repr

/-- `Fs`: derived filesystem parameters (fields not needed by the claims
are the computed scalar values, kept as plain naturals). -/
structure Fs : Type where
  sb : SuperBlock
  opts : FsOptions
  bg_count : Nat
  bg_size : Nat
  desc_size : Nat
  inode_size : Nat
  csum_seed : Option Nat
deriving DecidableEq, Repr

/-- The per-index body of the `s_encrypt_algos` resolution loop in
`get_and_check_fs_options`: an unknown value or `Null` is rejected. -/
def resolve_encrypt_algos : List (Option EncryptAlgo) → Except String (List EncryptAlgo)
  | [] => Except.ok []
  | none :: _ => Except.error "unknown encryption algorithm in s_encrypt_algos"
  | some EncryptAlgo.Null :: _ =>
    Except.error "invalid encryption algorithm in s_encrypt_algos"
  | some a :: rest => do
    let tail ← resolve_encrypt_algos rest
    pure (a :: tail)

/-- `get_and_check_fs_options` from `mod.rs`: constructs the flag wrappers
and enumerations from the superblock, then runs the validation pipeline.
`Except.error` models `bail!`. -/
def get_and_check_fs_options (sb : SuperBlock) (cfg : Config) :
    Except String FsOptions := do
  let state : State := ⟨sb.s_state⟩
  let error_policy : Option ErrorPolicy :=
    match sb.s_errors with
    | 0 => some ErrorPolicy.Null
    | 1 => some ErrorPolicy.Continue
    | 2 => some ErrorPolicy.ReadOnly
    | 3 => some ErrorPolicy.Panic
    | _ => none
  let fs_creator : Option FsCreator :=
    match sb.s_creator_os with
    | 0 => some FsCreator.Linux
    | 1 => some FsCreator.Hurd
    | 2 => some FsCreator.Masix
    | 3 => some FsCreator.FreeBSD
    | 4 => some FsCreator.Linux
    | _ => none
  let revision : Option Revision :=
    match sb.s_rev_level with
    | 0 => some Revision.GoodOld
    | 1 => some Revision.Dynamic
    | _ => none
  let compat : CompatFeatures := ⟨sb.s_feature_compat⟩
  let incompat : IncompatFeatures := ⟨sb.s_feature_incompat⟩
  let ro_compat : RoCompatFeatures := ⟨sb.s_feature_ro_compat⟩
  let def_hash_version : Option HashVersion :=
    match sb.s_def_hash_version with
    | 0 => some HashVersion.Legacy
    | 1 => some HashVersion.HalfMD4
    | 2 => some HashVersion.Tea
    | 3 => some HashVersion.LegacyUnsigned
    | 4 => some HashVersion.HalfMD4Unsigned
    | 5 => some HashVersion.TeaUnsigned
    | 6 => some HashVersion.SipHash
    | _ => none
  let def_mount_opts : DefMountOpts := ⟨sb.s_default_mount_opts⟩
  let flags : Flags := ⟨sb.s_flags⟩
  let encrypt_algos : List (Option EncryptAlgo) :=
    sb.s_encrypt_algos.map (fun b =>
      match b with
      | 0 => some EncryptAlgo.Null
      | 1 => some EncryptAlgo.AES256XTS
      | 2 => some EncryptAlgo.AES256GCM
      | 3 => some EncryptAlgo.AES256CBC
      | 4 => some EncryptAlgo.AES256CTS
      | _ => none)
  if state.has_unknown then throw "unknown s_state flags"
  if state.has_error then throw "errors present in the filesystem"
  if state.has_fc_replay then throw "fast-commit replay is in progress"
  let error_policy ← match error_policy with
    | none => throw "unknown error policy"
    | some ep => pure ep
  if error_policy = ErrorPolicy.Null then throw "invalid error policy"
  let fs_creator ← match fs_creator with
    | none => throw "unknown creator operating system"
    | some c => pure c
  let revision ← match revision with
    | none => throw "unknown revision level"
    | some r => pure r
  -- dynamic revision level only
  let dyn_cfg : Option DynConfig ←
    match revision with
    | Revision.Dynamic => do
      if compat.has_unknown then throw "unknown s_feature_compat flags"
      if compat.has_exclude_inode then throw "unsupported feature: exclude_inode"
      if compat.has_exclude_bitmap then throw "unsupported feature: exclude_bitmap"
      if incompat.has_unknown then throw "unknown s_feature_incompat flags"
      if incompat.has_recover ∧ ¬ cfg.ignore_recovery then
        throw "filesystem needs recovery"
      if incompat.has_journal_dev then throw "filesystem has an external journaling device"
      if incompat.has_meta_bg then throw "META_BG is not supported"
      if incompat.has_dirdata then throw "unsupported feature: dirdata"
      if incompat.has_encrypt then throw "filesystem has encrypted blocks"
      if ro_compat.has_unknown then throw "unknown s_feature_ro_compat flags"
      if ro_compat.has_readonly ∧ ¬ cfg.ignore_readonly then
        throw "filesystem is marked as read-only"
      if ro_compat.has_shared_blocks then throw "filesystem has shared blocks"
      if ro_compat.has_metadata_csum ∧ ro_compat.has_gdt_csum then
        throw "gdt_csum and metadata_csum cannot be set at the same time"
      if ro_compat.has_gdt_csum then throw "unsupported feature: gdt_csum"
      pure (some { compat := compat, incompat := incompat, ro_compat := ro_compat })
    | Revision.GoodOld => pure none
  -- journalling support only
  let journal_cfg : Option JournalConfig ←
    if compat.has_has_journal then do
      let dhv ← match def_hash_version with
        | none => throw "unknown default hash version"
        | some v => pure v
      if def_mount_opts.has_unknown then throw "unknown s_default_mount_opts flags"
      pure (some { def_hash_ver := dhv, def_mount_opts := def_mount_opts })
    else pure none
  -- 64-bit support only
  let bit64_cfg : Option Bit64Config ←
    if incompat.has_64bit then do
      if flags.has_unknown then throw "unknown s_flags flags"
      if flags.has_fix_snapshot then throw "snapshot inodes are corrupted"
      if flags.has_fix_exclude then throw "exclude bitmaps are corrupted"
      if incompat.has_encrypt then do
        let algos ← resolve_encrypt_algos encrypt_algos
        pure (some { flags := flags, encrypt_algos := some algos })
      else
        pure (some { flags := flags, encrypt_algos := none })
    else pure none
  pure {
    state := state
    error_policy := error_policy
    fs_creator := fs_creator
    revision := revision
    dyn_cfg := dyn_cfg
    journal_cfg := journal_cfg
    bit64_cfg := bit64_cfg
  }

/-- The `skip_super` computation at the top of `scan_regular_bg`: decides
whether the superblock-and-GDT marking step is skipped for block group
`bg_num`. -/
def skip_super (fs : Fs) (bg_num : Nat) : Bool :=
  match fs.opts.dyn_cfg with
  | none => false
  | some dyn_cfg =>
    if dyn_cfg.compat.has_sparse_super2 then
      if bg_num ≠ fs.sb.s_backup_bgs.1 ∧ bg_num ≠ fs.sb.s_backup_bgs.2 then
        true
      else
        false
    else if dyn_cfg.ro_compat.has_sparse_super
        ∧ bg_num ≠ 0 ∧ bg_num % 3 ≠ 0 ∧ bg_num % 5 ≠ 0 ∧ bg_num % 7 ≠ 0 then
      true
    else
      false

-- Inode model (src/filesys/e2fs/inode.rs).

/-- Number of block pointers in an inode (`N_BLOCKS`). -/
def N_BLOCKS : Nat := 15

/-- The on-disk `Inode` record; every field is a little-endian integer and
`i_block` is the array of `N_BLOCKS` block pointers. -/
structure Inode : Type where
  i_mode : Nat
  i_uid : Nat
  i_size_lo : Nat
  i_atime : Nat
  i_ctime : Nat
  i_mtime : Nat
  i_dtime : Nat
  i_gid : Nat
  i_links_count : Nat
  i_blocks_lo : Nat
  i_flags : Nat
  osd1 : Nat
  i_block : List Nat
  i_generation : Nat
  i_file_acl_lo : Nat
  i_size_high : Nat
  i_obso_faddr : Nat
  osd2 : List Nat
  i_extra_isize : Nat
  i_checksum_hi : Nat
  i_ctime_extra : Nat
  i_mtime_extra : Nat
  i_atime_extra : Nat
  i_crtime : Nat
  i_crtime_extra : Nat
  i_version_hi : Nat
  i_projid : Nat
deriving DecidableEq, Repr

/-- `IFlags(u32)` wrapper (the queries the walker uses). -/
structure IFlags : Type where
  raw : Nat
deriving DecidableEq, Repr

def IFlags.has_huge_file (x : IFlags) : Bool := x.raw &&& 0x40000 != 0
def IFlags.has_extents (x : IFlags) : Bool := x.raw &&& 0x80000 != 0
def IFlags.has_inline_data (x : IFlags) : Bool := x.raw &&& 0x10000000 != 0

/-- The decoded OS-dependent `osd2` area (Linux variant fields). -/
structure Osd2Linux : Type where
  l_i_blocks_high : Nat
  l_i_file_acl_high : Nat
  l_i_uid_high : Nat
  l_i_gid_high : Nat
  l_i_checksum_lo : Nat
  l_i_reserved : Nat
deriving DecidableEq, Repr

/-- The `Osd2` enum; the Hurd and Masix variants carry fields the walker
never reads, so they are kept opaque raw bytes. -/
inductive Osd2 : Type
  | Linux : Osd2Linux → Osd2
  | Hurd : List Nat → Osd2
  | Masix : List Nat → Osd2
deriving DecidableEq, Repr

/-- `get_block_count` from `inode.rs`: the number of filesystem blocks
occupied by the data of the inode.  The final division is guarded by
`assert!(blocks % bs == 0)`; `none` models that assert firing. -/
def get_block_count (inode : Inode) (osd2 : Osd2) (fs : Fs) : Option Nat :=
  let i_flags : IFlags := ⟨inode.i_flags⟩
  let blocks := inode.i_blocks_lo
  let blocks :=
    match fs.opts.dyn_cfg with
    | some dyn_cfg =>
      if dyn_cfg.ro_compat.has_huge_file then
        match osd2 with
        | Osd2.Linux l => hilo l.l_i_blocks_high inode.i_blocks_lo
        | _ => blocks
      else blocks
    | none => blocks
  let blocks := blocks *
    (if i_flags.has_huge_file then bs fs.sb.s_log_block_size else 512)
  if blocks % bs fs.sb.s_log_block_size = 0 then
    some (blocks / bs fs.sb.s_log_block_size)
  else
    none

/-- C6: the superblock-and-GDT marking step of `scan_regular_bg` is skipped
for group `g` exactly when either `sparse_super2` is set and `g` is neither
backup group, or `sparse_super2` is not set, `sparse_super` is set, and
`g ≠ 0 ∧ g % 3 ≠ 0 ∧ g % 5 ≠ 0 ∧ g % 7 ≠ 0`; `sparse_super2` takes
priority, and without `dyn_cfg` the step is never skipped. -/
theorem sparse_super_skip_rule (fs : Fs) (g : Nat) :
    skip_super fs g = true ↔
      ∃ dc, fs.opts.dyn_cfg = some dc ∧
        ((dc.compat.has_sparse_super2 = true ∧
            g ≠ fs.sb.s_backup_bgs.1 ∧ g ≠ fs.sb.s_backup_bgs.2) ∨
         (dc.compat.has_sparse_super2 = false ∧
            dc.ro_compat.has_sparse_super = true ∧
            g ≠ 0 ∧ g % 3 ≠ 0 ∧ g % 5 ≠ 0 ∧ g % 7 ≠ 0)) := by
  unfold skip_super
  match hdc : fs.opts.dyn_cfg with
  | none => simp
  | some dc =>
    simp only [Option.some.injEq]
    by_cases h2 : dc.compat.has_sparse_super2
    · rw [if_pos h2]
      constructor
      · intro h
        split at h
        · next hcond => exact ⟨dc, rfl, Or.inl ⟨h2, hcond⟩⟩
        · exact absurd h (by simp)
      · rintro ⟨dc2, hdc2, hor⟩
        obtain rfl : dc2 = dc := hdc2.symm
        rcases hor with ⟨-, hcond⟩ | ⟨hns, -⟩
        · rw [if_pos hcond]
        · rw [h2] at hns
          exact absurd hns (by simp)
    · rw [if_neg h2]
      constructor
      · intro h
        split at h
        · next hcond =>
          exact ⟨dc, rfl, Or.inr ⟨by simpa using h2, hcond.1, hcond.2.1, hcond.2.2.1,
            hcond.2.2.2.1, hcond.2.2.2.2⟩⟩
        · exact absurd h (by simp)
      · rintro ⟨dc2, hdc2, hor⟩
        obtain rfl : dc2 = dc := hdc2.symm
        rcases hor with ⟨hs2, -⟩ | ⟨-, hss, hg0, hg3, hg5, hg7⟩
        · exact absurd hs2 h2
        · rw [if_pos ⟨hss, hg0, hg3, hg5, hg7⟩]

/-- C7 counterexample: an inode with `i_blocks_lo = 1`, no flags, and a
1024-byte block size scales to 512 bytes, which is not a multiple of the
block size, so the `assert!(blocks % bs == 0)` in `get_block_count` fires
(modelled as `none`), contradicting the claim that the division is always
exact. -/
theorem get_block_count_assert_fires :
    get_block_count
      ⟨0, 0, 0, 0, 0, 0, 0, 0, 0, 1, 0, 0, List.replicate 15 0, 0, 0, 0, 0,
        List.replicate 12 0, 0, 0, 0, 0, 0, 0, 0, 0, 0⟩
      (Osd2.Linux ⟨0, 0, 0, 0, 0, 0⟩)
      ⟨⟨0, 1, 1, 0, 0, 0, 0, 0, 0, 0, 0, [0, 0, 0, 0], (0, 0)⟩,
        ⟨⟨1⟩, ErrorPolicy.Continue, FsCreator.Linux, Revision.GoodOld, none, none, none⟩,
        0, 0, 0, 0, none⟩ = none := by
  decide

/-- The scaled byte total of §4.5 of the specification, following its
words: the base count is `i_blocks_lo`, extended with the Linux
`l_i_blocks_high` when the `huge_file` ro_compat feature is set, then
multiplied by the block size when the inode `huge_file` flag is set and by
512 otherwise. -/
def spec_scaled_byte_total (inode : Inode) (osd2 : Osd2) (fs : Fs) : Nat :=
  let base :=
    match fs.opts.dyn_cfg with
    | some dyn_cfg =>
      if dyn_cfg.ro_compat.has_huge_file then
        match osd2 with
        | Osd2.Linux l => hilo l.l_i_blocks_high inode.i_blocks_lo
        | _ => inode.i_blocks_lo
      else inode.i_blocks_lo
    | none => inode.i_blocks_lo
  base * (if (IFlags.mk inode.i_flags).has_huge_file then
    bs fs.sb.s_log_block_size else 512)

/-- C7 amended: the data block count equals the scaled byte total divided
by the block size whenever that total is a multiple of the block size, and
the assertion fires (`none`, a panic) otherwise — the division is not
always exact. -/
theorem get_block_count_eq (inode : Inode) (osd2 : Osd2) (fs : Fs) :
    get_block_count inode osd2 fs =
      (if spec_scaled_byte_total inode osd2 fs % bs fs.sb.s_log_block_size = 0
       then some (spec_scaled_byte_total inode osd2 fs / bs fs.sb.s_log_block_size)
       else none) := by
  unfold get_block_count spec_scaled_byte_total
  cases fs.opts.dyn_cfg <;> cases osd2 <;> rfl

theorem creator_os_map_bug :
    (get_and_check_fs_options
        ⟨0, 1, 1, 4, 0, 0, 0, 0, 0, 0, 0, [0, 0, 0, 0], (0, 0)⟩
        ⟨false, false⟩).toOption.map FsOptions.fs_creator = some FsCreator.Linux ∧
    FsCreator.Linux ≠ FsCreator.Lites ∧
    (∀ (sb : SuperBlock) (cfg : Config), 5 ≤ sb.s_creator_os →
      ∀ o, get_and_check_fs_options sb cfg ≠ Except.ok o) := by
  refine ⟨by decide, by decide, ?_⟩
  intro sb cfg h o hok
  obtain ⟨k, hk⟩ : ∃ k, sb.s_creator_os = k + 5 := ⟨sb.s_creator_os - 5, by omega⟩
  simp only [get_and_check_fs_options, hk, bind, Except.bind] at hok
  repeat
    first
    | exact Except.noConfusion hok
    | split at hok
    | dsimp only at hok

-- ===================================================================
-- Space filler (src/fill.rs) with the zero generator
-- ===================================================================

/-- A seekable drive modelled as a cursor over a byte list (the test
harness of `fill.rs` uses `std::io::Cursor` the same way). -/
structure DriveState : Type where
  pos : Nat
  data : List Nat
deriving DecidableEq, Repr

/-- `drive.seek(SeekFrom::Start(p))`. -/
def drive_seek (d : DriveState) (p : Nat) : DriveState :=
  { d with pos := p }

/-- `drive.write(chunk)`: overwrites `chunk.length` bytes at the cursor
and advances it. -/
def drive_write (d : DriveState) (chunk : List Nat) : DriveState :=
  { pos := d.pos + chunk.length,
    data := d.data.take d.pos ++ chunk ++ d.data.drop (d.pos + chunk.length) }

/-- `ZeroGen::fill_bytes`: does nothing, relying on the buffer already
being zero-initialised.  A generator is modelled as a state-passing
buffer-filling function; the zero generator is stateless. -/
def zero_gen_fill_bytes (s : Unit) (dest : List Nat) : List Nat × Unit :=
  (dest, s)

/-- The inner `while written < segment.size()` loop of
`fill_free_space_with`, fuelled (each iteration writes at least one byte,
so `segSize` fuel suffices).  Carries the scratch buffer, its head, the
drive and the generator state. -/
def fill_seg_loop {σ : Type} (fill : σ → List Nat → List Nat × σ) :
    Nat → List Nat → Nat → DriveState → σ → Nat → Nat →
    List Nat × Nat × DriveState × σ
  | 0, buf, head, drive, s, _, _ => (buf, head, drive, s)
  | fuel + 1, buf, head, drive, s, segSize, written =>
    if written < segSize then
      let refilled :=
        if head = buf.length then
          let r := fill s buf
          (r.1, 0, r.2)
        else (buf, head, s)
      let buf := refilled.1
      let head := refilled.2.1
      let s := refilled.2.2
      let buf_remaining := buf.length - head
      let to_write := segSize - written
      let write_size := if to_write < buf_remaining then to_write else buf_remaining
      let drive := drive_write drive ((buf.drop head).take write_size)
      fill_seg_loop fill fuel buf (head + write_size) drive s segSize
        (written + write_size)
    else (buf, head, drive, s)

/-- The `for segment in map` loop of `fill_free_space_with`. -/
def fill_segments {σ : Type} (fill : σ → List Nat → List Nat × σ) :
    List Segment → List Nat → Nat → DriveState → σ →
    List Nat × Nat × DriveState × σ
  | [], buf, head, drive, s => (buf, head, drive, s)
  | seg :: rest, buf, head, drive, s =>
    if seg.status = AllocStatus.Free then
      let drive := drive_seek drive seg.start
      let r := fill_seg_loop fill (seg.stop - seg.start) buf head drive s
        (seg.stop - seg.start) 0
      fill_segments fill rest r.1 r.2.1 r.2.2.1 r.2.2.2
    else
      fill_segments fill rest buf head drive s

/-- `fill_free_space_with`: 4 KiB zero-initialised scratch buffer, one
initial `fill_bytes`, then the segment loop. -/
def fill_free_space_with {σ : Type} (fill : σ → List Nat → List Nat × σ)
    (s : σ) (map : UMap) (drive : DriveState) : DriveState :=
  let buf := List.replicate 4096 0
  let head := 0
  let r0 := fill s buf
  (fill_segments fill map r0.1 head drive r0.2).2.2.1

/-- The `FillMode::Zero` arm of `fill_free_space`. -/
def fill_free_space_zero (map : UMap) (drive : DriveState) : DriveState :=
  fill_free_space_with zero_gen_fill_bytes () map drive



theorem drive_write_spec (d : DriveState) (chunk : List Nat)
    (h : d.pos + chunk.length ≤ d.data.length) :
    (drive_write d chunk).data.length = d.data.length ∧
    (∀ i, i < d.pos ∨ d.pos + chunk.length ≤ i →
      (drive_write d chunk).data[i]? = d.data[i]?) ∧
    (∀ i, d.pos ≤ i → i < d.pos + chunk.length →
      (drive_write d chunk).data[i]? = chunk[i - d.pos]?) := by
  have hpos : d.pos ≤ d.data.length := by omega
  have hlt : (d.data.take d.pos).length = d.pos := by
    simp only [List.length_take]
    omega
  have hlt2 : (d.data.take d.pos ++ chunk).length = d.pos + chunk.length := by
    simp only [List.length_append]
    omega
  refine ⟨?_, ?_, ?_⟩
  · simp only [drive_write, List.length_append, List.length_take, List.length_drop]
    omega
  · intro i hi
    simp only [drive_write]
    rcases hi with hi | hi
    · rw [List.getElem?_append,
        if_pos (show i < (d.data.take d.pos ++ chunk).length by omega)]
      rw [List.getElem?_append, if_pos (show i < (d.data.take d.pos).length by omega)]
      rw [List.getElem?_take, if_pos hi]
    · rw [List.getElem?_append,
        if_neg (show ¬ i < (d.data.take d.pos ++ chunk).length by omega)]
      rw [List.getElem?_drop]
      congr 1
      omega
  · intro i h1 h2
    simp only [drive_write]
    rw [List.getElem?_append,
      if_pos (show i < (d.data.take d.pos ++ chunk).length by omega)]
    rw [List.getElem?_append, if_neg (show ¬ i < (d.data.take d.pos).length by omega)]
    rw [hlt]

theorem fill_seg_loop_zero_spec :
    ∀ (fuel : Nat) (B head written : Nat) (d : DriveState) (segSize segStart : Nat),
    0 < B →
    head ≤ B →
    segSize - written ≤ fuel →
    d.pos = segStart + written →
    segStart + segSize ≤ d.data.length →
    ∃ head2 d2,
      fill_seg_loop zero_gen_fill_bytes fuel (List.replicate B 0) head d ()
          segSize written
        = (List.replicate B 0, head2, d2, ()) ∧
      head2 ≤ B ∧
      d2.data.length = d.data.length ∧
      (∀ i, i < segStart + written ∨ segStart + segSize ≤ i →
        d2.data[i]? = d.data[i]?) ∧
      (∀ i, segStart + written ≤ i → i < segStart + segSize → d2.data[i]? = some 0) := by
  intro fuel
  induction fuel with
  | zero =>
    intro B head written d segSize segStart hB hh hf hp hb
    refine ⟨head, d, rfl, hh, rfl, fun i _ => rfl, fun i h1 h2 => ?_⟩
    omega
  | succ fuel ih =>
    intro B head written d segSize segStart hB hh hf hp hb
    by_cases hw : written < segSize
    · simp only [fill_seg_loop, if_pos hw, zero_gen_fill_bytes, List.length_replicate]
      by_cases hhead : head = B
      · simp only [if_pos hhead]
        simp only [List.length_replicate]
        set ws := if segSize - written < B - 0 then segSize - written else B - 0
          with hwsdef
        have hws1 : 1 ≤ ws := by rw [hwsdef]; split <;> omega
        have hws2 : ws ≤ B := by rw [hwsdef]; split <;> omega
        have hws3 : written + ws ≤ segSize := by rw [hwsdef]; split <;> omega
        have hchunk : ((List.replicate B (0:Nat)).drop 0).take ws
            = List.replicate ws 0 := by
          rw [List.drop_replicate, List.take_replicate]
          congr 1
          omega
        rw [hchunk]
        obtain ⟨hdw1, hdw2, hdw3⟩ := drive_write_spec d (List.replicate ws 0)
          (by simp only [List.length_replicate]; omega)
        obtain ⟨head2, d2, heq, hh2, hlen2, hout2, hin2⟩ :=
          ih B (0 + ws) (written + ws) (drive_write d (List.replicate ws 0))
            segSize segStart hB (by omega) (by omega)
            (by simp only [drive_write, List.length_replicate]; omega)
            (by rw [hdw1]; omega)
        refine ⟨head2, d2, heq, hh2, by rw [hlen2, hdw1], ?_, ?_⟩
        · intro i hi
          rw [hout2 i (by omega)]
          exact hdw2 i (by simp only [List.length_replicate]; omega)
        · intro i h1 h2
          by_cases hmid : i < segStart + (written + ws)
          · rw [hout2 i (by omega)]
            rw [hdw3 i (by omega) (by simp only [List.length_replicate]; omega)]
            rw [List.getElem?_replicate, if_pos (by omega)]
          · exact hin2 i (by omega) h2
      · simp only [if_neg hhead]
        simp only [List.length_replicate]
        set ws := if segSize - written < B - head then segSize - written else B - head
          with hwsdef
        have hws1 : 1 ≤ ws := by rw [hwsdef]; split <;> omega
        have hws2 : ws ≤ B - head := by rw [hwsdef]; split <;> omega
        have hws3 : written + ws ≤ segSize := by rw [hwsdef]; split <;> omega
        have hchunk : ((List.replicate B (0:Nat)).drop head).take ws
            = List.replicate ws 0 := by
          rw [List.drop_replicate, List.take_replicate]
          congr 1
          omega
        rw [hchunk]
        obtain ⟨hdw1, hdw2, hdw3⟩ := drive_write_spec d (List.replicate ws 0)
          (by simp only [List.length_replicate]; omega)
        obtain ⟨head2, d2, heq, hh2, hlen2, hout2, hin2⟩ :=
          ih B (head + ws) (written + ws) (drive_write d (List.replicate ws 0))
            segSize segStart hB (by omega) (by omega)
            (by simp only [drive_write, List.length_replicate]; omega)
            (by rw [hdw1]; omega)
        refine ⟨head2, d2, heq, hh2, by rw [hlen2, hdw1], ?_, ?_⟩
        · intro i hi
          rw [hout2 i (by omega)]
          exact hdw2 i (by simp only [List.length_replicate]; omega)
        · intro i h1 h2
          by_cases hmid : i < segStart + (written + ws)
          · rw [hout2 i (by omega)]
            rw [hdw3 i (by omega) (by simp only [List.length_replicate]; omega)]
            rw [List.getElem?_replicate, if_pos (by omega)]
          · exact hin2 i (by omega) h2
    · simp only [fill_seg_loop, if_neg hw]
      refine ⟨head, d, rfl, hh, rfl, fun i _ => rfl, fun i h1 h2 => ?_⟩
      omega

theorem fill_segments_zero_spec :
    ∀ (segs : List Segment) (B head : Nat) (d : DriveState),
    0 < B →
    head ≤ B →
    (∀ seg ∈ segs, seg.start ≤ seg.stop ∧ seg.stop ≤ d.data.length) →
    ∃ head2 d2,
      fill_segments zero_gen_fill_bytes segs (List.replicate B 0) head d ()
        = (List.replicate B 0, head2, d2, ()) ∧
      head2 ≤ B ∧
      d2.data.length = d.data.length ∧
      (∀ i, (∀ seg ∈ segs, seg.status = AllocStatus.Free →
          ¬ (seg.start ≤ i ∧ i < seg.stop)) →
        d2.data[i]? = d.data[i]?) ∧
      (∀ i seg, seg ∈ segs → seg.status = AllocStatus.Free → seg.start ≤ i →
        i < seg.stop → d2.data[i]? = some 0) := by
  intro segs
  induction segs with
  | nil =>
    intro B head d hB hh _
    exact ⟨head, d, rfl, hh, rfl, fun i _ => rfl, fun i seg hmem => absurd hmem (by simp)⟩
  | cons seg rest ih =>
    intro B head d hB hh hbounds
    obtain ⟨hss, hsb⟩ := hbounds seg (by simp)
    by_cases hfree : seg.status = AllocStatus.Free
    · simp only [fill_segments, if_pos hfree]
      obtain ⟨head1, d1, heq1, hh1, hlen1, hout1, hin1⟩ :=
        fill_seg_loop_zero_spec (seg.stop - seg.start) B head 0
          (drive_seek d seg.start) (seg.stop - seg.start) seg.start hB hh
          (Nat.le_refl _) (by simp [drive_seek]) (by simp [drive_seek]; omega)
      rw [heq1]
      obtain ⟨head2, d2, heq2, hh2, hlen2, hout2, hin2⟩ :=
        ih B head1 d1 hB hh1
          (fun s hs => by
            obtain ⟨a, b⟩ := hbounds s (by simp [hs])
            exact ⟨a, by rw [hlen1]; simpa [drive_seek] using b⟩)
      refine ⟨head2, d2, heq2, hh2, by rw [hlen2, hlen1]; simp [drive_seek], ?_, ?_⟩
      · intro i hnone
        rw [hout2 i (fun s hs hf => hnone s (by simp [hs]) hf)]
        rw [hout1 i (by
          have := hnone seg (by simp) hfree
          omega)]
        simp [drive_seek]
      · intro i s hmem hf h1 h2
        rcases List.mem_cons.mp hmem with rfl | hmem
        · -- inside the head segment: zeroed by the inner loop, and any
          -- later write is also a zero write
          by_cases hrest : ∀ s2 ∈ rest, s2.status = AllocStatus.Free →
              ¬ (s2.start ≤ i ∧ i < s2.stop)
          · rw [hout2 i hrest]
            exact hin1 i (by omega) (by omega)
          · push_neg at hrest
            obtain ⟨s2, hs2m, hs2f, hs2c⟩ := hrest
            exact hin2 i s2 hs2m hs2f hs2c.1 hs2c.2
        · exact hin2 i s hmem hf h1 h2
    · simp only [fill_segments, if_neg hfree]
      obtain ⟨head2, d2, heq2, hh2, hlen2, hout2, hin2⟩ :=
        ih B head d hB hh (fun s hs => hbounds s (by simp [hs]))
      refine ⟨head2, d2, heq2, hh2, hlen2, ?_, ?_⟩
      · intro i hnone
        exact hout2 i (fun s hs hf => hnone s (by simp [hs]) hf)
      · intro i s hmem hf h1 h2
        rcases List.mem_cons.mp hmem with rfl | hmem
        · exact absurd hf hfree
        · exact hin2 i s hmem hf h1 h2

theorem statusAt_mem {m : UMap} {x : Nat} {st : AllocStatus}
    (h : statusAt m x = some st) :
    ∃ seg ∈ m, seg.status = st ∧ seg.start ≤ x ∧ x < seg.stop := by
  induction m with
  | nil => exact absurd h (by simp [statusAt])
  | cons e rest ih =>
    by_cases hx : e.start ≤ x ∧ x < e.stop
    · rw [statusAt_cons_pos hx.1 hx.2] at h
      exact ⟨e, by simp, Option.some.inj h, hx⟩
    · rw [statusAt_cons_neg hx] at h
      obtain ⟨seg, hmem, hrest⟩ := ih h
      exact ⟨seg, by simp [hmem], hrest⟩

theorem chain_containing_status {s n : Nat} {m : UMap} (h : Chain s m n)
    {seg : Segment} (hmem : seg ∈ m) {x : Nat} (h1 : seg.start ≤ x)
    (h2 : x < seg.stop) : statusAt m x = some seg.status := by
  induction m generalizing s with
  | nil => cases hmem
  | cons e rest ih =>
    obtain ⟨g1, g2, g3⟩ := h
    rcases List.mem_cons.mp hmem with rfl | hmem
    · exact statusAt_cons_pos h1 h2
    · obtain ⟨b1, b2⟩ := chain_mem_bounds g3 hmem
      rw [statusAt_cons_neg (by omega)]
      exact ih g3 hmem

/-- C3: running the space filler with the zero generator over a
well-formed usage map writes 0 to every byte offset lying inside a Free
segment and leaves every byte offset lying inside a Used segment
unchanged. -/
theorem zero_fill_frame {map : UMap} {N : Nat} (hwf : WFMap map N)
    (data : List Nat) (hlen : data.length = N) :
    (fill_free_space_zero map ⟨0, data⟩).data.length = N ∧
    ∀ i, i < N →
      (statusAt map i = some AllocStatus.Free →
        (fill_free_space_zero map ⟨0, data⟩).data[i]? = some 0) ∧
      (statusAt map i = some AllocStatus.Used →
        (fill_free_space_zero map ⟨0, data⟩).data[i]? = data[i]?) := by
  obtain ⟨hch, halt, hn0⟩ := hwf
  have hbounds : ∀ seg ∈ map, seg.start ≤ seg.stop ∧
      seg.stop ≤ (DriveState.mk 0 data).data.length := by
    intro seg hs
    refine ⟨Nat.le_of_lt (chain_mem_strict hch hs), ?_⟩
    have := (chain_mem_bounds hch hs).2
    simpa [hlen] using this
  obtain ⟨head2, d2, heq, -, hlen2, hout, hin⟩ :=
    fill_segments_zero_spec map 4096 0 ⟨0, data⟩ (by omega) (by omega) hbounds
  have hres : fill_free_space_zero map ⟨0, data⟩ = d2 := by
    unfold fill_free_space_zero fill_free_space_with
    simp only [zero_gen_fill_bytes]
    rw [heq]
  rw [hres]
  refine ⟨by simp only [hlen2]; simpa using hlen, ?_⟩
  intro i hi
  constructor
  · intro hfree
    obtain ⟨seg, hmem, hst, hx1, hx2⟩ := statusAt_mem hfree
    exact hin i seg hmem hst hx1 hx2
  · intro hused
    have hnofree : ∀ seg ∈ map, seg.status = AllocStatus.Free →
        ¬ (seg.start ≤ i ∧ i < seg.stop) := by
      intro seg hmem hf ⟨h1, h2⟩
      have := chain_containing_status hch hmem h1 h2
      rw [hused] at this
      have : AllocStatus.Used = seg.status := Option.some.inj this
      rw [hf] at this
      exact AllocStatus.noConfusion this
    have := hout i hnofree
    simpa using this

theorem zero_fill_frame_witness :
    WFMap (newMap 5) 5 ∧ ([7, 7, 7, 7, 7] : List Nat).length = 5 ∧
    ((fill_free_space_zero (newMap 5) ⟨0, [7, 7, 7, 7, 7]⟩).data.length = 5 ∧
    ∀ i, i < 5 →
      (statusAt (newMap 5) i = some AllocStatus.Free →
        (fill_free_space_zero (newMap 5) ⟨0, [7, 7, 7, 7, 7]⟩).data[i]? = some 0) ∧
      (statusAt (newMap 5) i = some AllocStatus.Used →
        (fill_free_space_zero (newMap 5) ⟨0, [7, 7, 7, 7, 7]⟩).data[i]? =
          ([7, 7, 7, 7, 7] : List Nat)[i]?)) :=
  ⟨newMap_wf (by decide), by decide,
    zero_fill_frame (newMap_wf (by decide)) [7, 7, 7, 7, 7] (by decide)⟩

-- ===================================================================
-- Extent records and the leaf-to-Used mapping of scan_regular_iblock
-- (src/filesys/e2fs/extent.rs, src/filesys/e2fs/inode.rs)
-- ===================================================================

/-- The 12-byte on-disk `Extent` leaf record. -/
structure Extent : Type where
  ee_block : Nat
  ee_len : Nat
  ee_start_hi : Nat
  ee_start_lo : Nat
deriving DecidableEq, Repr

/-- The body of the `for e in extent_iterator` loop of
`scan_regular_iblock`: clip the leaf against the file size and mark the
physical byte range Used.  `none` models a panic inside `update`. -/
def scan_leaf_extent (map : UMap) (e : Extent) (file_size : Nat) (fs : Fs) :
    Option UMap :=
  let log_start := e.ee_block * bs fs.sb.s_log_block_size
  if log_start ≥ file_size then some map
  else
    let len := e.ee_len * bs fs.sb.s_log_block_size
    let len := if log_start + len > file_size then file_size - log_start else len
    let start := hilo e.ee_start_hi e.ee_start_lo * bs fs.sb.s_log_block_size
    update map start len AllocStatus.Used

/-- C5: a leaf whose logical start is at or past the file size marks
nothing; otherwise, with `phys·bs` inside the map, exactly the physical
byte range `[phys·bs, phys·bs + min(len·bs, S − logical·bs))` (clipped to
the map size) becomes Used and every other byte keeps its status. -/
theorem scan_leaf_extent_spec {map : UMap} {N : Nat} (hwf : WFMap map N)
    (e : Extent) (S : Nat) (fs : Fs) :
    (S ≤ e.ee_block * bs fs.sb.s_log_block_size →
      scan_leaf_extent map e S fs = some map) ∧
    (e.ee_block * bs fs.sb.s_log_block_size < S →
      hilo e.ee_start_hi e.ee_start_lo * bs fs.sb.s_log_block_size ≤ N →
      ∃ m2, scan_leaf_extent map e S fs = some m2 ∧
        (∀ x, hilo e.ee_start_hi e.ee_start_lo * bs fs.sb.s_log_block_size ≤ x →
          x < min (hilo e.ee_start_hi e.ee_start_lo * bs fs.sb.s_log_block_size +
            min (e.ee_len * bs fs.sb.s_log_block_size)
              (S - e.ee_block * bs fs.sb.s_log_block_size)) N →
          statusAt m2 x = some AllocStatus.Used) ∧
        (∀ x, x < hilo e.ee_start_hi e.ee_start_lo * bs fs.sb.s_log_block_size ∨
          min (hilo e.ee_start_hi e.ee_start_lo * bs fs.sb.s_log_block_size +
            min (e.ee_len * bs fs.sb.s_log_block_size)
              (S - e.ee_block * bs fs.sb.s_log_block_size)) N ≤ x →
          statusAt m2 x = statusAt map x)) := by
  constructor
  · intro hskip
    unfold scan_leaf_extent
    rw [if_pos (by omega : e.ee_block * bs fs.sb.s_log_block_size ≥ S)]
  · intro hlog hphys
    unfold scan_leaf_extent
    rw [if_neg (by omega : ¬ e.ee_block * bs fs.sb.s_log_block_size ≥ S)]
    have hlen : (if e.ee_block * bs fs.sb.s_log_block_size +
          e.ee_len * bs fs.sb.s_log_block_size > S then
        S - e.ee_block * bs fs.sb.s_log_block_size
      else e.ee_len * bs fs.sb.s_log_block_size) =
        min (e.ee_len * bs fs.sb.s_log_block_size)
          (S - e.ee_block * bs fs.sb.s_log_block_size) := by
      split <;> omega
    simp only []
    rw [hlen]
    obtain ⟨m2, heq, -, hin, hout⟩ := update_spec hwf _ _ AllocStatus.Used hphys
    exact ⟨m2, heq, hin, hout⟩

theorem scan_leaf_extent_spec_witness :
    WFMap (newMap 4096) 4096 ∧ (0 * bs 0 < 100) ∧ (hilo 0 2 * bs 0 ≤ 4096) ∧
    (∃ m2, scan_leaf_extent (newMap 4096) ⟨0, 1, 0, 2⟩ 100
        ⟨⟨0, 1, 1, 0, 0, 0, 0, 0, 0, 0, 0, [0, 0, 0, 0], (0, 0)⟩,
          ⟨⟨1⟩, ErrorPolicy.Continue, FsCreator.Linux, Revision.GoodOld, none, none, none⟩,
          0, 0, 0, 0, none⟩ = some m2 ∧
      (∀ x, hilo 0 2 * bs 0 ≤ x →
        x < min (hilo 0 2 * bs 0 + min (1 * bs 0) (100 - 0 * bs 0)) 4096 →
        statusAt m2 x = some AllocStatus.Used) ∧
      (∀ x, x < hilo 0 2 * bs 0 ∨
        min (hilo 0 2 * bs 0 + min (1 * bs 0) (100 - 0 * bs 0)) 4096 ≤ x →
        statusAt m2 x = statusAt (newMap 4096) x)) :=
  ⟨newMap_wf (by decide), by decide, by decide,
    (scan_leaf_extent_spec (newMap_wf (by decide)) ⟨0, 1, 0, 2⟩ 100
      ⟨⟨0, 1, 1, 0, 0, 0, 0, 0, 0, 0, 0, [0, 0, 0, 0], (0, 0)⟩,
        ⟨⟨1⟩, ErrorPolicy.Continue, FsCreator.Linux, Revision.GoodOld, none, none, none⟩,
        0, 0, 0, 0, none⟩).2 (by decide) (by decide)⟩

-- ===================================================================
-- Extent tree and its iterator (src/filesys/e2fs/extent.rs)
-- ===================================================================

/-- The 12-byte extent tree node header. -/
structure ExtentHeader : Type where
  eh_magic : Nat
  eh_entries : Nat
  eh_max : Nat
  eh_depth : Nat
  eh_generation : Nat
deriving DecidableEq, Repr

/-- The 12-byte interior index record. -/
structure ExtentIdx : Type where
  ei_block : Nat
  ei_leaf_lo : Nat
  ei_leaf_hi : Nat
  ei_unused : Nat
deriving DecidableEq, Repr

/-- `Entries`: leaf extents or interior indexes. -/
inductive Entries : Type
  | Extents : List Extent → Entries
  | Indexes : List ExtentIdx → Entries
deriving DecidableEq, Repr

/-- An extent tree `Node`: header, entries, and the recursively populated
subnodes (`None` until `populate_subnodes` runs; leaves keep `None`). -/
inductive Node : Type
  | mk : ExtentHeader → Entries → Option (List Node) → Node
deriving Repr

def Node.header : Node → ExtentHeader
  | Node.mk h _ _ => h

def Node.entries : Node → Entries
  | Node.mk _ e _ => e

def Node.subnodes : Node → Option (List Node)
  | Node.mk _ _ s => s

/-- `ExtentTreeIterator::new`: one index per tree level, all zero. -/
def iterInit (t : Node) : List Nat :=
  List.replicate (t.header.eh_depth + 1) 0

/-- `SearchResult` of one walk; `Panic` models the panicking paths
(an out-of-range index, a missing subnode vector, a leaf holding indexes,
or the explicit too-long-branch panic). -/
inductive SR : Type
  | Found : Extent → SR
  | BadPath : SR
  | EndR : SR
  | Panic : SR
deriving DecidableEq, Repr

/-- `for i in &mut self.indices[cur_node_i..] { *i = 0; }` -/
def zeroFrom (v : List Nat) (k : Nat) : List Nat :=
  v.take k ++ List.replicate (v.length - k) 0

/-- The walk of `try_find_element`, written with the current node carried
down the tree.  The fuel only bounds the walk depth; the source bounds it
by `self.indices.len()` through its explicit panic check, so
`v.length + 1` fuel is always enough. -/
def tryFindAux : Node → List Nat → Nat → Nat → SR × List Nat
  | _, v, _, 0 => (SR.Panic, v)
  | node, v, k, fuel + 1 =>
    if node.header.eh_depth > 0 then
      -- interior node: check the branch-length panic, then the subnodes
      if k ≥ v.length then (SR.Panic, v)
      else
        match node.subnodes with
        | none => (SR.Panic, v)
        | some subs =>
          match v[k]? with
          | none => (SR.Panic, v)
          | some idx =>
            if idx ≥ subs.length then
              if k = 0 then (SR.Panic, v)
              else
                match v[k - 1]? with
                | none => (SR.Panic, v)
                | some pidx =>
                  (SR.BadPath, zeroFrom (v.set (k - 1) (pidx + 1)) k)
            else
              match subs[idx]? with
              | none => (SR.Panic, v)
              | some child => tryFindAux child v (k + 1) fuel
    else
      -- leaf node: `assert!(cur_node.subnodes.is_none())`, then the extents
      match node.subnodes with
      | some _ => (SR.Panic, v)
      | none =>
        match node.entries with
        | Entries.Indexes _ => (SR.Panic, v)
        | Entries.Extents es =>
          match v[k]? with
          | none => (SR.Panic, v)
          | some idx =>
            if idx ≥ es.length then
              if k = 0 then (SR.Panic, v)
              else
                match v[k - 1]? with
                | none => (SR.Panic, v)
                | some pidx =>
                  (SR.BadPath, (v.set (k - 1) (pidx + 1)).set k 0)
            else
              match es[idx]? with
              | none => (SR.Panic, v)
              | some res => (SR.Found res, v.set k (idx + 1))

/-- `try_find_element`: the end-of-iteration check on `indices[0]`, then
the walk from the root. -/
def tryFind (t : Node) (v : List Nat) : SR × List Nat :=
  match v[0]? with
  | none => (SR.Panic, v)
  | some i0 =>
    if i0 ≥ t.header.eh_entries then (SR.EndR, v)
    else tryFindAux t v 0 (v.length + 1)

/-- Result of one `next` call. -/
inductive NextRes : Type
  | item : Extent → List Nat → NextRes
  | done : List Nat → NextRes
  | panicked : List Nat → NextRes
  | noFuel : List Nat → NextRes
deriving DecidableEq, Repr

/-- `Iterator::next`: walk repeatedly until a leaf is found or the search
space is exhausted, fuelled. -/
def nextFuel (t : Node) : Nat → List Nat → NextRes
  | 0, v => NextRes.noFuel v
  | fuel + 1, v =>
    match tryFind t v with
    | (SR.Found e, v2) => NextRes.item e v2
    | (SR.EndR, v2) => NextRes.done v2
    | (SR.Panic, v2) => NextRes.panicked v2
    | (SR.BadPath, v2) => nextFuel t fuel v2

/-- Iterating the iterator to exhaustion (the flat sequence of
`try_find_element` calls made by repeated `next` calls), collecting the
found extents; `none` on a panic or on fuel exhaustion. -/
def iterFuel (t : Node) : Nat → List Nat → Option (List Extent)
  | 0, _ => none
  | fuel + 1, v =>
    match tryFind t v with
    | (SR.Found e, v2) => (iterFuel t fuel v2).map (fun l => e :: l)
    | (SR.EndR, _) => some []
    | (SR.Panic, _) => none
    | (SR.BadPath, v2) => iterFuel t fuel v2

mutual

/-- The leaf extents of a tree in left-to-right order. -/
def flattenNode : Node → List Extent
  | Node.mk _ (Entries.Extents es) _ => es
  | Node.mk _ (Entries.Indexes _) none => []
  | Node.mk _ (Entries.Indexes _) (some subs) => flattenList subs

def flattenList : List Node → List Extent
  | [] => []
  | n :: rest => flattenNode n ++ flattenList rest

end

mutual

/-- Total number of leaf-extent records. -/
def leafCountNode : Node → Nat
  | Node.mk _ (Entries.Extents es) _ => es.length
  | Node.mk _ (Entries.Indexes _) none => 0
  | Node.mk _ (Entries.Indexes _) (some subs) => leafCountList subs

def leafCountList : List Node → Nat
  | [] => 0
  | n :: rest => leafCountNode n + leafCountList rest

end

mutual

/-- The largest entry count appearing in the tree (used to bound the
index vector coordinates). -/
def maxEntNode : Node → Nat
  | Node.mk h _ none => h.eh_entries
  | Node.mk h _ (some subs) => max h.eh_entries (maxEntList subs)

def maxEntList : List Node → Nat
  | [] => 0
  | n :: rest => max (maxEntNode n) (maxEntList rest)

end

/-- Well-formed populated trees: the shape produced by `Node::from_raw`
plus `populate_subnodes` when every branch reaches depth 0 with exactly
one subnode per index entry. -/
inductive WF : Node → Nat → Prop where
  | leaf : ∀ (h : ExtentHeader) (es : List Extent),
      h.eh_depth = 0 → es.length = h.eh_entries →
      WF (Node.mk h (Entries.Extents es) none) 0
  | internal : ∀ (h : ExtentHeader) (idxs : List ExtentIdx) (subs : List Node) (d : Nat),
      h.eh_depth = d + 1 → idxs.length = h.eh_entries → subs.length = h.eh_entries →
      (∀ c ∈ subs, WF c d) →
      WF (Node.mk h (Entries.Indexes idxs) (some subs)) (d + 1)

/-- The extents at or after the position described by an index vector, in
iteration order. -/
def remNode : List Nat → Node → List Extent
  | [], _ => []
  | idx :: _, Node.mk _ (Entries.Extents es) _ => es.drop idx
  | _ :: _, Node.mk _ (Entries.Indexes _) none => []
  | idx :: rest, Node.mk _ (Entries.Indexes _) (some subs) =>
    (match subs[idx]? with
     | some c => remNode rest c
     | none => []) ++ flattenList (subs.drop (idx + 1))

/-- Admissible iterator states: a strict path, then one coordinate that
may be exhausted, then zeros.  The initial state and every state the
iterator leaves behind after a walk are admissible. -/
def Adm : List Nat → Node → Prop
  | [], _ => False
  | b :: rest, Node.mk _ (Entries.Extents es) _ => rest = [] ∧ b ≤ es.length
  | _ :: _, Node.mk _ (Entries.Indexes _) none => False
  | i :: rest, Node.mk h (Entries.Indexes _) (some subs) =>
    (∃ c, subs[i]? = some c ∧ Adm rest c) ∨
    (i = subs.length ∧ rest = List.replicate h.eh_depth 0)

/-- A state whose top coordinate is exhausted (the walk will bubble the
overflow to the caller). -/
def overflowState : List Nat → Node → Prop
  | v, Node.mk _ (Entries.Extents es) _ => v = [es.length]
  | v, Node.mk h (Entries.Indexes _) (some subs) =>
    v = subs.length :: List.replicate h.eh_depth 0
  | _, Node.mk _ (Entries.Indexes _) none => False

/-- Mixed-radix encoding of an index vector (radix `M + 1`). -/
def encodeVec (M : Nat) : List Nat → Nat
  | [] => 0
  | i :: rest => i * (M + 1) ^ rest.length + encodeVec M rest

-- Basic facts about the iterator state space.

theorem flattenList_cons (n : Node) (rest : List Node) :
    flattenList (n :: rest) = flattenNode n ++ flattenList rest := by
  rfl

mutual

theorem leafCount_flattenNode : ∀ n : Node, (flattenNode n).length = leafCountNode n
  | Node.mk _ (Entries.Extents _) _ => rfl
  | Node.mk _ (Entries.Indexes _) none => rfl
  | Node.mk h (Entries.Indexes i) (some subs) => by
    simp only [flattenNode, leafCountNode]
    exact leafCount_flattenList subs

theorem leafCount_flattenList : ∀ l : List Node, (flattenList l).length = leafCountList l
  | [] => rfl
  | n :: rest => by
    simp only [flattenList, leafCountList, List.length_append]
    rw [leafCount_flattenNode n, leafCount_flattenList rest]

end

theorem maxEnt_mem {c : Node} : ∀ {l : List Node}, c ∈ l → maxEntNode c ≤ maxEntList l := by
  intro l
  induction l with
  | nil => intro h; cases h
  | cons n rest ih =>
    intro h
    rcases List.mem_cons.mp h with rfl | h
    · simp only [maxEntList]
      exact Nat.le_max_left _ _
    · simp only [maxEntList]
      exact Nat.le_trans (ih h) (Nat.le_max_right _ _)

theorem maxEnt_child {h : ExtentHeader} {e : Entries} {subs : List Node} {c : Node}
    (hc : c ∈ subs) : maxEntNode c ≤ maxEntNode (Node.mk h e (some subs)) := by
  simp only [maxEntNode]
  exact Nat.le_trans (maxEnt_mem hc) (Nat.le_max_right _ _)

theorem maxEnt_entries (h : ExtentHeader) (e : Entries) (sub : Option (List Node)) :
    h.eh_entries ≤ maxEntNode (Node.mk h e sub) := by
  cases sub with
  | none => simp [maxEntNode]
  | some subs => simp only [maxEntNode]; exact Nat.le_max_left _ _

theorem encode_replicate_zero (M : Nat) : ∀ n, encodeVec M (List.replicate n 0) = 0 := by
  intro n
  induction n with
  | zero => rfl
  | succ n ih =>
    simp only [List.replicate, encodeVec, ih]
    omega

theorem encode_lt (M : Nat) : ∀ (v : List Nat), (∀ x ∈ v, x ≤ M) →
    encodeVec M v < (M + 1) ^ v.length := by
  intro v
  induction v with
  | nil => intro _; simp [encodeVec]
  | cons i rest ih =>
    intro hb
    simp only [encodeVec, List.length_cons]
    have h1 : encodeVec M rest < (M + 1) ^ rest.length := ih (fun x hx => hb x (by simp [hx]))
    have h2 : i ≤ M := hb i (by simp)
    calc i * (M + 1) ^ rest.length + encodeVec M rest
        < i * (M + 1) ^ rest.length + (M + 1) ^ rest.length := by omega
      _ = (i + 1) * (M + 1) ^ rest.length := by ring
      _ ≤ (M + 1) * (M + 1) ^ rest.length := by
          exact Nat.mul_le_mul_right _ (by omega)
      _ = (M + 1) ^ (rest.length + 1) := by ring

theorem adm_length : ∀ {v : List Nat} {node : Node} {δ : Nat},
    WF node δ → Adm v node → v.length = δ + 1 := by
  intro v
  induction v with
  | nil => intro node δ _ hadm; exact absurd hadm (by simp [Adm])
  | cons i rest ih =>
    intro node δ hwf hadm
    cases hwf with
    | leaf h es hd hlen =>
      obtain ⟨hrest, -⟩ := hadm
      simp [hrest]
    | internal h idxs subs d hd hil hsl hsub =>
      simp only [Adm] at hadm
      rcases hadm with ⟨c, hc, hadm⟩ | ⟨-, hrest⟩
      · have hmem : c ∈ subs := by
          obtain ⟨hlt, hval⟩ := List.getElem?_eq_some.mp hc
          exact hval ▸ List.getElem_mem hlt
        have := ih (hsub c hmem) hadm
        simp only [List.length_cons, this]
      · simp only [List.length_cons, hrest, List.length_replicate, hd]

theorem adm_coords : ∀ {v : List Nat} {node : Node} {δ : Nat},
    WF node δ → Adm v node → ∀ x ∈ v, x ≤ maxEntNode node := by
  intro v
  induction v with
  | nil => intro node δ _ hadm; exact absurd hadm (by simp [Adm])
  | cons i rest ih =>
    intro node δ hwf hadm x hx
    cases hwf with
    | leaf h es hd hlen =>
      obtain ⟨hrest, hb⟩ := hadm
      subst hrest
      rcases List.mem_cons.mp hx with rfl | hx
      · exact Nat.le_trans (hlen ▸ hb) (maxEnt_entries h _ _)
      · cases hx
    | internal h idxs subs d hd hil hsl hsub =>
      simp only [Adm] at hadm
      rcases hadm with ⟨c, hc, hadm⟩ | ⟨hi, hrest⟩
      · have hmem : c ∈ subs := by
          obtain ⟨hlt, hval⟩ := List.getElem?_eq_some.mp hc
          exact hval ▸ List.getElem_mem hlt
        rcases List.mem_cons.mp hx with rfl | hx
        · have hlt : x < subs.length := (List.getElem?_eq_some.mp hc).1
          exact Nat.le_trans (by omega : x ≤ h.eh_entries)
            (maxEnt_entries h _ _)
        · exact Nat.le_trans (ih (hsub c hmem) hadm x hx) (maxEnt_child hmem)
      · rcases List.mem_cons.mp hx with rfl | hx
        · exact Nat.le_trans (by omega : x ≤ h.eh_entries) (maxEnt_entries h _ _)
        · rw [hrest] at hx
          have : x = 0 := List.eq_of_mem_replicate hx
          omega

theorem adm_init {node : Node} {δ : Nat} (hwf : WF node δ) :
    Adm (List.replicate (δ + 1) 0) node := by
  induction hwf with
  | leaf h es hd hlen =>
    simp [Adm, List.replicate]
  | internal h idxs subs d hd hil hsl hsub ih =>
    show Adm (0 :: List.replicate (d + 1) 0) (Node.mk h (Entries.Indexes idxs) (some subs))
    simp only [Adm]
    cases subs with
    | nil => exact Or.inr ⟨rfl, by rw [hd]⟩
    | cons c tail =>
      exact Or.inl ⟨c, by simp, ih c (by simp)⟩

theorem rem_zeros {node : Node} {δ : Nat} (hwf : WF node δ) :
    remNode (List.replicate (δ + 1) 0) node = flattenNode node := by
  induction hwf with
  | leaf h es hd hlen =>
    simp [remNode, flattenNode, List.replicate]
  | internal h idxs subs d hd hil hsl hsub ih =>
    show remNode (0 :: List.replicate (d + 1) 0) _ = _
    cases subs with
    | nil => rfl
    | cons c tail =>
      simp only [remNode, flattenNode]
      have h0 : (c :: tail)[0]? = some c := by simp
      rw [h0]
      simp only [List.drop_succ_cons, List.drop_zero]
      rw [ih c (by simp)]
      rfl

theorem rem_overflow : ∀ {v : List Nat} {node : Node},
    overflowState v node → remNode v node = [] := by
  intro v node hov
  match node with
  | Node.mk h (Entries.Extents es) sub =>
    simp only [overflowState] at hov
    subst hov
    simp [remNode]
  | Node.mk h (Entries.Indexes i) none => exact absurd hov (by simp [overflowState])
  | Node.mk h (Entries.Indexes i) (some subs) =>
    simp only [overflowState] at hov
    subst hov
    simp only [remNode]
    rw [List.getElem?_eq_none (Nat.le_refl _)]
    have : subs.drop (subs.length + 1) = [] := List.drop_eq_nil_of_le (by omega)
    rw [this]
    rfl

theorem take_append_cons {α : Type} (A : List α) (x : α) (B : List α) :
    (A ++ x :: B).take (A.length + 1) = A ++ [x] := by
  have h1 : A ++ x :: B = (A ++ [x]) ++ B := by simp
  rw [h1]
  have hlen : (A ++ [x]).length = A.length + 1 := by simp
  rw [← hlen, List.take_left]

theorem exists_concat_of_ne_nil {α : Type} {l : List α} (h : l ≠ []) :
    ∃ Q a, l = Q ++ [a] := by
  rcases List.eq_nil_or_concat l with h2 | ⟨Q, a, h2⟩
  · exact absurd h2 h
  · exact ⟨Q, a, by simpa [List.concat_eq_append] using h2⟩

theorem flattenList_drop_succ (subs : List Node) (i : Nat) :
    flattenList (subs.drop (i + 1)) =
      (match subs[i + 1]? with
       | some c2 => flattenNode c2
       | none => []) ++ flattenList (subs.drop (i + 2)) := by
  by_cases hlt : i + 1 < subs.length
  · rw [List.getElem?_eq_getElem hlt, List.drop_eq_getElem_cons hlt]
    rfl
  · rw [List.getElem?_eq_none (by omega)]
    rw [List.drop_eq_nil_of_le (by omega), List.drop_eq_nil_of_le (by omega)]
    rfl

theorem tryFindAux_spec {M : Nat} : ∀ {node : Node} {δ : Nat}, WF node δ →
    maxEntNode node ≤ M →
    ∀ (P w : List Nat) (fuel : Nat), Adm w node → δ + 1 ≤ fuel →
    (P = [] → ¬ overflowState w node) →
    (∃ e w2, tryFindAux node (P ++ w) P.length fuel = (SR.Found e, P ++ w2) ∧
       Adm w2 node ∧ remNode w node = e :: remNode w2 node ∧
       encodeVec M w < encodeVec M w2 ∧ w2.length = w.length) ∨
    (∃ w2, tryFindAux node (P ++ w) P.length fuel = (SR.BadPath, P ++ w2) ∧
       Adm w2 node ∧ remNode w2 node = remNode w node ∧
       encodeVec M w < encodeVec M w2 ∧ w2.length = w.length) ∨
    (overflowState w node ∧ ∃ Q iP, P = Q ++ [iP] ∧
       tryFindAux node (P ++ w) P.length fuel =
         (SR.BadPath, Q ++ (iP + 1) :: List.replicate (δ + 1) 0)) := by
  intro node δ hwf
  induction hwf with
  | leaf h es hd hlen =>
    intro hM P w fuel hadm hfuel hroot
    obtain ⟨b, hw, hb⟩ : ∃ b, w = [b] ∧ b ≤ es.length := by
      match w, hadm with
      | b :: rest, hadm => exact ⟨b, by rw [hadm.1], hadm.2⟩
    subst hw
    obtain ⟨f, rfl⟩ : ∃ f, fuel = f + 1 := ⟨fuel - 1, by omega⟩
    have hget : (P ++ [b])[P.length]? = some b := getElem_split P b []
    simp only [tryFindAux, Node.header, Node.subnodes, Node.entries]
    rw [if_neg (by omega : ¬ h.eh_depth > 0)]
    rw [hget]
    dsimp only
    by_cases hov : b = es.length
    · right; right
      have hovs : overflowState [b] (Node.mk h (Entries.Extents es) none) := by
        simp [overflowState, hov]
      refine ⟨hovs, ?_⟩
      have hPne : P ≠ [] := fun hP => (hroot hP) hovs
      obtain ⟨Q, iP, rfl⟩ := exists_concat_of_ne_nil hPne
      refine ⟨Q, iP, rfl, ?_⟩
      rw [if_pos (by omega : b ≥ es.length)]
      rw [if_neg (by simp : ¬ (Q ++ [iP]).length = 0)]
      have hk1 : (Q ++ [iP]).length - 1 = Q.length := by simp
      have hassoc : (Q ++ [iP]) ++ [b] = Q ++ iP :: [b] := by simp
      rw [hk1, hassoc, getElem_split Q iP [b]]
      dsimp only
      rw [set_split Q iP [b] (iP + 1)]
      have hk2 : (Q ++ [iP]).length = Q.length + 1 := by simp
      rw [hk2, set_split_succ Q (iP + 1) b [] 0]
      rfl
    · left
      have hblt : b < es.length := by omega
      rw [if_neg (by omega : ¬ b ≥ es.length)]
      rw [List.getElem?_eq_getElem hblt]
      dsimp only
      rw [set_split P b [] (b + 1)]
      refine ⟨es[b], [b + 1], rfl, ⟨rfl, by omega⟩, ?_, ?_, rfl⟩
      · simp only [remNode]
        exact List.drop_eq_getElem_cons hblt
      · simp only [encodeVec, List.length_nil, pow_zero]
        omega
  | internal h idxs subs d hd hil hsl hsub ih =>
    intro hM P w fuel hadm hfuel hroot
    obtain ⟨f, rfl⟩ : ∃ f, fuel = f + 1 := ⟨fuel - 1, by omega⟩
    obtain ⟨i, rest, hw⟩ : ∃ i rest, w = i :: rest := by
      match w, hadm with
      | i :: rest, _ => exact ⟨i, rest, rfl⟩
    subst hw
    simp only [Adm] at hadm
    have hget : (P ++ i :: rest)[P.length]? = some i := getElem_split P i rest
    simp only [tryFindAux, Node.header, Node.subnodes, Node.entries]
    rw [if_pos (by omega : h.eh_depth > 0)]
    rw [if_neg (by simp : ¬ P.length ≥ (P ++ i :: rest).length)]
    rw [hget]
    dsimp only
    rcases hadm with ⟨c, hc, hadmc⟩ | ⟨hi, hrest⟩
    · -- descend into the child
      have hilt : i < subs.length := (List.getElem?_eq_some.mp hc).1
      have hmem : c ∈ subs := by
        obtain ⟨hlt, hval⟩ := List.getElem?_eq_some.mp hc
        exact hval ▸ List.getElem_mem hlt
      have hwfc : WF c d := hsub c hmem
      have hrlen : rest.length = d + 1 := adm_length hwfc hadmc
      rw [if_neg (by omega : ¬ i ≥ subs.length)]
      rw [hc]
      dsimp only
      have hassoc : P ++ i :: rest = (P ++ [i]) ++ rest := by simp
      have hklen : P.length + 1 = (P ++ [i]).length := by simp
      rw [hassoc, hklen]
      have ihc := ih c hmem (Nat.le_trans (maxEnt_child hmem) hM) (P ++ [i]) rest f
        hadmc (by omega) (by simp)
      rcases ihc with ⟨e, w2, heq, hadm2, hrem, henc, hlen2⟩ |
        ⟨w2, heq, hadm2, hrem, henc, hlen2⟩ | ⟨hovc, Q, iP, hPQ, heq⟩
      · left
        refine ⟨e, i :: w2, by rw [heq]; simp, Or.inl ⟨c, hc, hadm2⟩, ?_, ?_,
          by simp [hlen2]⟩
        · simp only [remNode]
          rw [hc]
          dsimp only
          rw [hrem]
          simp
        · simp only [encodeVec, hlen2]
          omega
      · right; left
        refine ⟨i :: w2, by rw [heq]; simp, Or.inl ⟨c, hc, hadm2⟩, ?_, ?_,
          by simp [hlen2]⟩
        · simp only [remNode]
          rw [hc]
          dsimp only
          rw [hrem]
        · simp only [encodeVec, hlen2]
          omega
      · -- the child bubbled its overflow to our own coordinate
        obtain ⟨rfl, rfl⟩ : P = Q ∧ i = iP :=
          List.concat_inj.mp (by simpa [List.concat_eq_append] using hPQ)
        right; left
        have hrem0 : remNode rest c = [] := rem_overflow hovc
        have hcoords : ∀ x ∈ rest, x ≤ M := fun x hx =>
          Nat.le_trans (adm_coords hwfc hadmc x hx)
            (Nat.le_trans (maxEnt_child hmem) hM)
        have hencr : encodeVec M rest < (M + 1) ^ (d + 1) := by
          have := encode_lt M rest hcoords
          rwa [hrlen] at this
        refine ⟨(i + 1) :: List.replicate (d + 1) 0, by rw [heq], ?_, ?_, ?_, by simp [hrlen]⟩
        · -- admissibility of the new state
          by_cases hnext : i + 1 < subs.length
          · exact Or.inl ⟨subs[i + 1], List.getElem?_eq_getElem hnext,
              adm_init (hsub subs[i + 1] (List.getElem_mem hnext))⟩
          · exact Or.inr ⟨by omega, by rw [hd]⟩
        · -- the remaining extents are unchanged
          simp only [remNode]
          rw [hc]
          dsimp only
          rw [hrem0, flattenList_drop_succ subs i]
          by_cases hnext : i + 1 < subs.length
          · rw [List.getElem?_eq_getElem hnext]
            dsimp only
            have : remNode (List.replicate (d + 1) 0) subs[i + 1] =
                flattenNode subs[i + 1] :=
              rem_zeros (hsub subs[i + 1] (List.getElem_mem hnext))
            rw [this]
            simp
          · rw [List.getElem?_eq_none (by omega)]
            simp
        · -- the encoding strictly increases
          simp only [encodeVec, hrlen, List.length_replicate, encode_replicate_zero]
          have hA : (i + 1) * (M + 1) ^ (d + 1)
              = i * (M + 1) ^ (d + 1) + (M + 1) ^ (d + 1) := by ring
          omega
    · -- our own coordinate is exhausted: bubble up
      right; right
      have hovs : overflowState (i :: rest) (Node.mk h (Entries.Indexes idxs) (some subs)) := by
        simp only [overflowState]
        rw [hi, hrest]
      refine ⟨hovs, ?_⟩
      have hPne : P ≠ [] := fun hP => (hroot hP) hovs
      obtain ⟨Q, iP, rfl⟩ := exists_concat_of_ne_nil hPne
      refine ⟨Q, iP, rfl, ?_⟩
      rw [if_pos (by omega : i ≥ subs.length)]
      rw [if_neg (by simp : ¬ (Q ++ [iP]).length = 0)]
      have hk1 : (Q ++ [iP]).length - 1 = Q.length := by simp
      have hassoc : (Q ++ [iP]) ++ i :: rest = Q ++ iP :: (i :: rest) := by simp
      rw [hk1, hassoc, getElem_split Q iP (i :: rest)]
      dsimp only
      rw [set_split Q iP (i :: rest) (iP + 1)]
      unfold zeroFrom
      have hk2 : (Q ++ [iP]).length = Q.length + 1 := by simp
      rw [hk2, take_append_cons Q (iP + 1) (i :: rest)]
      have hlen3 : (Q ++ (iP + 1) :: i :: rest).length - (Q.length + 1)
          = (d + 1) + 1 := by
        simp only [List.length_append, List.length_cons]
        rw [hrest, hd]
        simp only [List.length_replicate]
        omega
      rw [hlen3]
      simp

theorem wf_depth {node : Node} {δ : Nat} (hwf : WF node δ) :
    node.header.eh_depth = δ := by
  cases hwf with
  | leaf h es hd hlen => exact hd
  | internal h idxs subs d hd hil hsl hsub => exact hd

theorem adm_head {node : Node} {δ : Nat} (hwf : WF node δ) :
    ∀ {v : List Nat}, Adm v node →
    ∃ i0 rest, v = i0 :: rest ∧ i0 ≤ node.header.eh_entries ∧
      (overflowState v node ↔ i0 = node.header.eh_entries) := by
  intro v hadm
  cases hwf with
  | leaf h es hd hlen =>
    obtain ⟨i0, rest, rfl⟩ : ∃ i0 rest, v = i0 :: rest := by
      match v, hadm with
      | i0 :: rest, _ => exact ⟨i0, rest, rfl⟩
    simp only [Adm] at hadm
    obtain ⟨hr, hb⟩ := hadm
    subst hr
    refine ⟨i0, [], rfl, by simp only [Node.header]; omega, ?_⟩
    simp only [overflowState, Node.header, List.cons.injEq, eq_self_iff_true, and_true]
    omega
  | internal h idxs subs d hd hil hsl hsub =>
    obtain ⟨i0, rest, rfl⟩ : ∃ i0 rest, v = i0 :: rest := by
      match v, hadm with
      | i0 :: rest, _ => exact ⟨i0, rest, rfl⟩
    simp only [Adm] at hadm
    refine ⟨i0, rest, rfl, ?_, ?_⟩
    · rcases hadm with ⟨c, hc, _⟩ | ⟨hi, _⟩
      · have hlt := (List.getElem?_eq_some.mp hc).1
        simp only [Node.header]
        omega
      · simp only [Node.header]
        omega
    · simp only [overflowState, Node.header, List.cons.injEq]
      constructor
      · rintro ⟨h1, _⟩
        omega
      · intro h1
        rcases hadm with ⟨c, hc, _⟩ | ⟨hi, hr⟩
        · have hlt := (List.getElem?_eq_some.mp hc).1
          exact absurd h1 (by omega)
        · exact ⟨hi, hr⟩

/-- One full `try_find_element` call starting from an admissible state
either reports the end of iteration (exactly on the exhausted state),
yields the next remaining extent, or rewinds a bad path; in the two
non-end cases the state stays admissible, the remaining-extents view is
tracked exactly, and the mixed-radix encoding strictly increases. -/
theorem tryFind_spec {M : Nat} {t : Node} {δ : Nat} (hwf : WF t δ)
    (hM : maxEntNode t ≤ M) {v : List Nat} (hadm : Adm v t) :
    (overflowState v t ∧ tryFind t v = (SR.EndR, v)) ∨
    (¬ overflowState v t ∧
      ((∃ e v2, tryFind t v = (SR.Found e, v2) ∧ Adm v2 t ∧
          remNode v t = e :: remNode v2 t ∧ encodeVec M v < encodeVec M v2 ∧
          v2.length = v.length) ∨
        (∃ v2, tryFind t v = (SR.BadPath, v2) ∧ Adm v2 t ∧
          remNode v2 t = remNode v t ∧ encodeVec M v < encodeVec M v2 ∧
          v2.length = v.length))) := by
  obtain ⟨i0, rest, rfl, hle, hiff⟩ := adm_head hwf hadm
  have hv0 : (i0 :: rest)[0]? = some i0 := List.getElem?_cons_zero
  by_cases hov : i0 = t.header.eh_entries
  · left
    refine ⟨hiff.mpr hov, ?_⟩
    simp only [tryFind]
    rw [hv0]
    dsimp only
    rw [if_pos (by omega)]
  · right
    refine ⟨fun hcon => hov (hiff.mp hcon), ?_⟩
    have hwalk := tryFindAux_spec hwf hM [] (i0 :: rest) ((i0 :: rest).length + 1)
      hadm (by have := adm_length hwf hadm; omega)
      (fun _ => fun hcon => hov (hiff.mp hcon))
    rcases hwalk with ⟨e, w2, heq, hadm2, hrem, henc, hlen⟩ |
      ⟨w2, heq, hadm2, hrem, henc, hlen⟩ | ⟨_, Q, iP, hQ, _⟩
    · left
      refine ⟨e, w2, ?_, hadm2, hrem, henc, hlen⟩
      simp only [tryFind]
      rw [hv0]
      dsimp only
      rw [if_neg (by omega)]
      simpa using heq
    · right
      refine ⟨w2, ?_, hadm2, hrem, henc, hlen⟩
      simp only [tryFind]
      rw [hv0]
      dsimp only
      rw [if_neg (by omega)]
      simpa using heq
    · exact absurd hQ (by simp)

/-- With enough fuel relative to the remaining index-vector budget,
draining the iterator from any admissible state collects exactly the
remaining extents, in order, with no panic. -/
theorem iterFuel_spec {M : Nat} {t : Node} {δ : Nat} (hwf : WF t δ)
    (hM : maxEntNode t ≤ M) :
    ∀ (fuel : Nat) (v : List Nat), Adm v t →
      (M + 1) ^ (δ + 1) + 1 ≤ encodeVec M v + fuel →
      iterFuel t fuel v = some (remNode v t) := by
  intro fuel
  induction fuel with
  | zero =>
    intro v hadm hbound
    have hlt := encode_lt M v (fun x hx => Nat.le_trans (adm_coords hwf hadm x hx) hM)
    rw [adm_length hwf hadm] at hlt
    exact absurd hbound (by omega)
  | succ f ih =>
    intro v hadm hbound
    rcases tryFind_spec (M := M) hwf hM hadm with ⟨hov, heq⟩ | ⟨hnov, hcases⟩
    · simp only [iterFuel]
      rw [heq]
      dsimp only
      rw [rem_overflow hov]
    · rcases hcases with ⟨e, v2, heq, hadm2, hrem, henc, _⟩ |
        ⟨v2, heq, hadm2, hrem, henc, _⟩
      · simp only [iterFuel]
        rw [heq]
        dsimp only
        rw [ih v2 hadm2 (by omega), hrem]
        rfl
      · simp only [iterFuel]
        rw [heq]
        dsimp only
        rw [ih v2 hadm2 (by omega), hrem]

/-- With enough fuel relative to the remaining index-vector budget, one
`next` call from any admissible state returns an item or signals the end:
it never panics and never exhausts its fuel. -/
theorem nextFuel_spec {M : Nat} {t : Node} {δ : Nat} (hwf : WF t δ)
    (hM : maxEntNode t ≤ M) :
    ∀ (fuel : Nat) (v : List Nat), Adm v t →
      (M + 1) ^ (δ + 1) + 1 ≤ encodeVec M v + fuel →
      (∃ e v2, nextFuel t fuel v = NextRes.item e v2 ∧ Adm v2 t) ∨
      (∃ v2, nextFuel t fuel v = NextRes.done v2) := by
  intro fuel
  induction fuel with
  | zero =>
    intro v hadm hbound
    have hlt := encode_lt M v (fun x hx => Nat.le_trans (adm_coords hwf hadm x hx) hM)
    rw [adm_length hwf hadm] at hlt
    exact absurd hbound (by omega)
  | succ f ih =>
    intro v hadm hbound
    rcases tryFind_spec (M := M) hwf hM hadm with ⟨hov, heq⟩ | ⟨hnov, hcases⟩
    · right
      refine ⟨v, ?_⟩
      simp only [nextFuel]
      rw [heq]
    · rcases hcases with ⟨e, v2, heq, hadm2, hrem, henc, _⟩ |
        ⟨v2, heq, hadm2, hrem, henc, _⟩
      · left
        refine ⟨e, v2, ?_, hadm2⟩
        simp only [nextFuel]
        rw [heq]
      · have hstep : nextFuel t (f + 1) v = nextFuel t f v2 := by
          simp only [nextFuel]
          rw [heq]
        rw [hstep]
        exact ih v2 hadm2 (by omega)

/-- The scenario tree used as a concrete witness: a depth-1 root over a
single leaf holding three extents. -/
def leafG : Node := Node.mk ⟨0xf30a, 3, 4, 0, 0⟩ (Entries.Extents
  [⟨0, 5, 0, 1000⟩, ⟨10, 7, 0, 2000⟩, ⟨50, 3, 0, 3000⟩]) none

def rootG : Node := Node.mk ⟨0xf30a, 1, 4, 1, 0⟩ (Entries.Indexes [⟨0, 77, 0, 0⟩]) (some [leafG])

theorem leafG_wf : WF leafG 0 :=
  WF.leaf ⟨0xf30a, 3, 4, 0, 0⟩ [⟨0, 5, 0, 1000⟩, ⟨10, 7, 0, 2000⟩, ⟨50, 3, 0, 3000⟩] rfl rfl

theorem rootG_wf : WF rootG 1 := by
  refine WF.internal ⟨0xf30a, 1, 4, 1, 0⟩ [⟨0, 77, 0, 0⟩] [leafG] 0 rfl rfl rfl ?_
  intro c hc
  rcases List.mem_singleton.mp hc with rfl
  exact leafG_wf

/-- **C4**: for every well-formed extent tree (one subnode per interior
entry, extents at depth 0), running the iterator to exhaustion from its
initial state yields exactly the tree's leaf extents in left-to-right
order — in particular exactly `leafCountNode t` of them — within the
stated fuel, with no panic. -/
theorem extent_iterator_completeness {t : Node} {D : Nat} (hwf : WF t D) :
    iterFuel t ((maxEntNode t + 1) ^ (D + 1) + 1) (iterInit t) = some (flattenNode t) ∧
    (flattenNode t).length = leafCountNode t := by
  constructor
  · have hinit : iterInit t = List.replicate (D + 1) 0 := by
      simp only [iterInit, wf_depth hwf]
    rw [hinit]
    have hrun := iterFuel_spec hwf (Nat.le_refl (maxEntNode t))
      ((maxEntNode t + 1) ^ (D + 1) + 1) (List.replicate (D + 1) 0) (adm_init hwf)
      (by rw [encode_replicate_zero]; omega)
    rw [hrun, rem_zeros hwf]
  · exact leafCount_flattenNode t

/-- **C4 witness**: on the concrete depth-1 tree the iterator yields its
three leaf extents. -/
theorem extent_iterator_completeness_witness :
    WF rootG 1 ∧
    (iterFuel rootG ((maxEntNode rootG + 1) ^ (1 + 1) + 1) (iterInit rootG) =
        some (flattenNode rootG) ∧
      (flattenNode rootG).length = leafCountNode rootG) :=
  ⟨rootG_wf, extent_iterator_completeness rootG_wf⟩


/-- Loosely well-formed trees: internal nodes (positive depth) carry one
subnode per index entry, leaves (depth 0) hold one extent record per
entry, and every branch passes through at most `B` internal levels
before reaching its leaf — branches need not all have the same length. -/
inductive WFL : Node → Nat → Prop where
  | leaf : ∀ (h : ExtentHeader) (es : List Extent) (B : Nat),
      h.eh_depth = 0 → es.length = h.eh_entries →
      WFL (Node.mk h (Entries.Extents es) none) B
  | internal : ∀ (h : ExtentHeader) (idxs : List ExtentIdx) (subs : List Node) (B : Nat),
      0 < h.eh_depth → idxs.length = h.eh_entries → subs.length = h.eh_entries →
      (∀ c ∈ subs, WFL c B) →
      WFL (Node.mk h (Entries.Indexes idxs) (some subs)) (B + 1)

/-- The walk of `try_find_element` on a loosely well-formed subtree never
panics and, measured by the mixed-radix encoding, strictly advances the
index vector: it finds an extent, rewinds a bad path inside the subtree,
or bubbles the overflow of its own coordinate to the caller.  Unlike the
uniform-tree walk lemma, the coordinates below the current branch are
arbitrary bounded values. -/
theorem tryFindAuxL_spec {M : Nat} : ∀ {node : Node} {B : Nat}, WFL node B →
    maxEntNode node ≤ M →
    ∀ (P : List Nat) (i : Nat) (w' : List Nat) (fuel : Nat),
    B + 1 ≤ fuel → B ≤ w'.length → (∀ x ∈ i :: w', x ≤ M) →
    (P = [] → i < node.header.eh_entries) →
    (∃ e w2, tryFindAux node (P ++ i :: w') P.length fuel = (SR.Found e, P ++ w2) ∧
       (∀ x ∈ w2, x ≤ M) ∧ encodeVec M (i :: w') < encodeVec M w2 ∧
       w2.length = w'.length + 1) ∨
    (∃ w2, tryFindAux node (P ++ i :: w') P.length fuel = (SR.BadPath, P ++ w2) ∧
       (∀ x ∈ w2, x ≤ M) ∧ encodeVec M (i :: w') < encodeVec M w2 ∧
       w2.length = w'.length + 1) ∨
    (∃ Q iP t2, P = Q ++ [iP] ∧
       tryFindAux node (P ++ i :: w') P.length fuel = (SR.BadPath, Q ++ (iP + 1) :: t2) ∧
       (∀ x ∈ t2, x ≤ M) ∧ t2.length = w'.length + 1) := by
  intro node B hwf
  induction hwf with
  | leaf h es B hd hel =>
    intro hM P i w' fuel hfuel hwlen hcoords hroot
    obtain ⟨f, rfl⟩ : ∃ f, fuel = f + 1 := ⟨fuel - 1, by omega⟩
    have hget : (P ++ i :: w')[P.length]? = some i := getElem_split P i w'
    simp only [tryFindAux, Node.header, Node.subnodes, Node.entries]
    rw [if_neg (by omega : ¬ h.eh_depth > 0)]
    rw [hget]
    dsimp only
    by_cases hov : i ≥ es.length
    · right; right
      have hPne : P ≠ [] := by
        intro hP
        have hlt := hroot hP
        simp only [Node.header] at hlt
        omega
      obtain ⟨Q, iP, rfl⟩ := exists_concat_of_ne_nil hPne
      refine ⟨Q, iP, 0 :: w', rfl, ?_, ?_, by simp⟩
      · rw [if_pos hov]
        rw [if_neg (by simp : ¬ (Q ++ [iP]).length = 0)]
        have hk1 : (Q ++ [iP]).length - 1 = Q.length := by simp
        have hassoc : (Q ++ [iP]) ++ i :: w' = Q ++ iP :: i :: w' := by simp
        rw [hk1, hassoc, getElem_split Q iP (i :: w')]
        dsimp only
        rw [set_split Q iP (i :: w') (iP + 1)]
        have hk2 : (Q ++ [iP]).length = Q.length + 1 := by simp
        rw [hk2, set_split_succ Q (iP + 1) i w' 0]
      · intro x hx
        rcases List.mem_cons.mp hx with rfl | hx2
        · omega
        · exact hcoords x (List.mem_cons_of_mem i hx2)
    · left
      have hblt : i < es.length := by omega
      rw [if_neg hov]
      rw [List.getElem?_eq_getElem hblt]
      dsimp only
      rw [set_split P i w' (i + 1)]
      have hiM : i + 1 ≤ M := by
        have h1 := maxEnt_entries h (Entries.Extents es) none
        omega
      refine ⟨es[i], (i + 1) :: w', rfl, ?_, ?_, by simp⟩
      · intro x hx
        rcases List.mem_cons.mp hx with rfl | hx2
        · omega
        · exact hcoords x (List.mem_cons_of_mem i hx2)
      · simp only [encodeVec]
        have hpow : 0 < (M + 1) ^ w'.length := pow_pos (by omega : (0:Nat) < M + 1) _
        have hmul : (i + 1) * (M + 1) ^ w'.length
            = i * (M + 1) ^ w'.length + (M + 1) ^ w'.length := by ring
        omega
  | internal h idxs subs B hdpos hil hsl hsub ih =>
    intro hM P i w' fuel hfuel hwlen hcoords hroot
    obtain ⟨f, rfl⟩ : ∃ f, fuel = f + 1 := ⟨fuel - 1, by omega⟩
    have hget : (P ++ i :: w')[P.length]? = some i := getElem_split P i w'
    simp only [tryFindAux, Node.header, Node.subnodes, Node.entries]
    rw [if_pos hdpos]
    rw [if_neg (by simp : ¬ P.length ≥ (P ++ i :: w').length)]
    rw [hget]
    dsimp only
    by_cases hi : i ≥ subs.length
    · right; right
      have hPne : P ≠ [] := by
        intro hP
        have hlt := hroot hP
        simp only [Node.header] at hlt
        omega
      obtain ⟨Q, iP, rfl⟩ := exists_concat_of_ne_nil hPne
      refine ⟨Q, iP, List.replicate (w'.length + 1) 0, rfl, ?_, ?_, by simp⟩
      · rw [if_pos hi]
        rw [if_neg (by simp : ¬ (Q ++ [iP]).length = 0)]
        have hk1 : (Q ++ [iP]).length - 1 = Q.length := by simp
        have hassoc : (Q ++ [iP]) ++ i :: w' = Q ++ iP :: i :: w' := by simp
        rw [hk1, hassoc, getElem_split Q iP (i :: w')]
        dsimp only
        rw [set_split Q iP (i :: w') (iP + 1)]
        unfold zeroFrom
        have hk2 : (Q ++ [iP]).length = Q.length + 1 := by simp
        rw [hk2, take_append_cons Q (iP + 1) (i :: w')]
        have hlen3 : (Q ++ (iP + 1) :: i :: w').length - (Q.length + 1)
            = w'.length + 1 := by
          simp only [List.length_append, List.length_cons]
          omega
        rw [hlen3]
        simp
      · intro x hx
        rw [List.eq_of_mem_replicate hx]
        omega
    · have hilt : i < subs.length := by omega
      rw [if_neg hi]
      rw [List.getElem?_eq_getElem hilt]
      dsimp only
      obtain ⟨i2, w'', rfl⟩ : ∃ i2 w'', w' = i2 :: w'' := by
        cases w' with
        | nil =>
          exfalso
          simp only [List.length_nil] at hwlen
          omega
        | cons a l => exact ⟨a, l, rfl⟩
      have hassoc : P ++ i :: i2 :: w'' = (P ++ [i]) ++ i2 :: w'' := by simp
      have hklen : P.length + 1 = (P ++ [i]).length := by simp
      rw [hassoc, hklen]
      have hmem : subs[i] ∈ subs := List.getElem_mem hilt
      have hiM : i + 1 ≤ M := by
        have h1 := maxEnt_entries h (Entries.Indexes idxs) (some subs)
        omega
      have ihc := ih subs[i] hmem (Nat.le_trans (maxEnt_child hmem) hM) (P ++ [i]) i2 w'' f
        (by omega) (by simp only [List.length_cons] at hwlen; omega)
        (fun x hx => hcoords x (List.mem_cons_of_mem i hx))
        (by simp)
      rcases ihc with ⟨e, w2, heq, hc2, henc, hlen2⟩ |
        ⟨w2, heq, hc2, henc, hlen2⟩ | ⟨Q, iP, t2, hPQ, heq, hc2, hlen2⟩
      · left
        refine ⟨e, i :: w2, by rw [heq]; simp, ?_, ?_, by simp [hlen2]⟩
        · intro x hx
          rcases List.mem_cons.mp hx with rfl | hx2
          · exact hcoords x (List.mem_cons_self x (i2 :: w''))
          · exact hc2 x hx2
        · simp only [encodeVec, List.length_cons, hlen2] at henc ⊢
          omega
      · right; left
        refine ⟨i :: w2, by rw [heq]; simp, ?_, ?_, by simp [hlen2]⟩
        · intro x hx
          rcases List.mem_cons.mp hx with rfl | hx2
          · exact hcoords x (List.mem_cons_self x (i2 :: w''))
          · exact hc2 x hx2
        · simp only [encodeVec, List.length_cons, hlen2] at henc ⊢
          omega
      · obtain ⟨rfl, rfl⟩ : P = Q ∧ i = iP :=
          List.concat_inj.mp (by simpa [List.concat_eq_append] using hPQ)
        right; left
        refine ⟨(i + 1) :: t2, by rw [heq], ?_, ?_, by simp [hlen2]⟩
        · intro x hx
          rcases List.mem_cons.mp hx with rfl | hx2
          · omega
          · exact hc2 x hx2
        · have hew : encodeVec M (i2 :: w'') < (M + 1) ^ (i2 :: w'').length :=
            encode_lt M (i2 :: w'') (fun x hx => hcoords x (List.mem_cons_of_mem i hx))
          simp only [encodeVec, List.length_cons, hlen2] at hew ⊢
          have hmul : (i + 1) * (M + 1) ^ (w''.length + 1)
              = i * (M + 1) ^ (w''.length + 1) + (M + 1) ^ (w''.length + 1) := by ring
          omega

/-- One `try_find_element` call on a loosely well-formed tree, from any
index vector that is long enough and has bounded coordinates, signals
the end of iteration, finds an extent, or rewinds a bad path; in the
bad-path case the encoding strictly increases, and length and bounds are
preserved. -/
theorem tryFindL_spec {M : Nat} {t : Node} {B : Nat} (hwf : WFL t B)
    (hM : maxEntNode t ≤ M) {v : List Nat} (hlen : B + 1 ≤ v.length)
    (hcoords : ∀ x ∈ v, x ≤ M) :
    (∃ v2, tryFind t v = (SR.EndR, v2)) ∨
    (∃ e v2, tryFind t v = (SR.Found e, v2) ∧ (∀ x ∈ v2, x ≤ M) ∧
       v2.length = v.length) ∨
    (∃ v2, tryFind t v = (SR.BadPath, v2) ∧ (∀ x ∈ v2, x ≤ M) ∧
       encodeVec M v < encodeVec M v2 ∧ v2.length = v.length) := by
  obtain ⟨i, w', rfl⟩ : ∃ i w', v = i :: w' := by
    cases v with
    | nil =>
      exfalso
      simp only [List.length_nil] at hlen
      omega
    | cons a l => exact ⟨a, l, rfl⟩
  have hv0 : (i :: w')[0]? = some i := List.getElem?_cons_zero
  by_cases hend : i ≥ t.header.eh_entries
  · left
    refine ⟨i :: w', ?_⟩
    simp only [tryFind]
    rw [hv0]
    dsimp only
    rw [if_pos hend]
  · have hwalk := tryFindAuxL_spec hwf hM [] i w' ((i :: w').length + 1)
      (by simp only [List.length_cons] at hlen ⊢; omega)
      (by simp only [List.length_cons] at hlen; omega)
      hcoords (fun _ => by omega)
    rcases hwalk with ⟨e, w2, heq, hc2, henc, hlen2⟩ |
      ⟨w2, heq, hc2, henc, hlen2⟩ | ⟨Q, iP, t2, hPQ, _, _, _⟩
    · right; left
      refine ⟨e, w2, ?_, hc2, by simp [hlen2]⟩
      simp only [tryFind]
      rw [hv0]
      dsimp only
      rw [if_neg hend]
      simpa using heq
    · right; right
      refine ⟨w2, ?_, hc2, henc, by simp [hlen2]⟩
      simp only [tryFind]
      rw [hv0]
      dsimp only
      rw [if_neg hend]
      simpa using heq
    · exact absurd hPQ (by simp)

/-- With fuel covering the remaining index-vector budget, one `next`
call on a loosely well-formed tree from any long-enough, bounded index
vector returns an item (preserving length and bounds) or the end marker:
it never panics and never runs out of retries. -/
theorem nextFuelL_spec {M : Nat} {t : Node} {B : Nat} (hwf : WFL t B)
    (hM : maxEntNode t ≤ M) :
    ∀ (fuel : Nat) (v : List Nat), B + 1 ≤ v.length → (∀ x ∈ v, x ≤ M) →
      (M + 1) ^ v.length + 1 ≤ encodeVec M v + fuel →
      (∃ e v2, nextFuel t fuel v = NextRes.item e v2 ∧ (∀ x ∈ v2, x ≤ M) ∧
         v2.length = v.length) ∨
      (∃ v2, nextFuel t fuel v = NextRes.done v2) := by
  intro fuel
  induction fuel with
  | zero =>
    intro v hlen hcoords hbound
    have hlt := encode_lt M v hcoords
    exact absurd hbound (by omega)
  | succ f ih =>
    intro v hlen hcoords hbound
    rcases tryFindL_spec (M := M) hwf hM hlen hcoords with
      ⟨v2, heq⟩ | ⟨e, v2, heq, hc2, hlen2⟩ | ⟨v2, heq, hc2, henc, hlen2⟩
    · right
      refine ⟨v2, ?_⟩
      simp only [nextFuel]
      rw [heq]
    · left
      refine ⟨e, v2, ?_, hc2, hlen2⟩
      simp only [nextFuel]
      rw [heq]
    · have hstep : nextFuel t (f + 1) v = nextFuel t f v2 := by
        simp only [nextFuel]
        rw [heq]
      rw [hstep]
      have hres := ih v2 (by omega) hc2 (by rw [hlen2]; omega)
      rcases hres with ⟨e, v3, heq3, hc3, hlen3⟩ | ⟨v3, heq3⟩
      · exact Or.inl ⟨e, v3, heq3, hc3, by omega⟩
      · exact Or.inr ⟨v3, heq3⟩

/-- A non-uniform concrete tree: a root declaring `eh_depth = 2` whose
single branch already reaches its leaf after one internal level. -/
def rootNU : Node :=
  Node.mk ⟨0xf30a, 1, 4, 2, 0⟩ (Entries.Indexes [⟨0, 77, 0, 0⟩]) (some [leafG])

theorem rootNU_wfl : WFL rootNU rootNU.header.eh_depth := by
  refine WFL.internal ⟨0xf30a, 1, 4, 2, 0⟩ [⟨0, 77, 0, 0⟩] [leafG] 1 (by decide) rfl rfl ?_
  intro c hc
  rcases List.mem_singleton.mp hc with rfl
  exact WFL.leaf ⟨0xf30a, 3, 4, 0, 0⟩
    [⟨0, 5, 0, 1000⟩, ⟨10, 7, 0, 2000⟩, ⟨50, 3, 0, 3000⟩] 1 rfl rfl

/-- **C10**: on every extent tree whose internal nodes carry one subnode
per index entry and whose branch lengths do not exceed the root's
`eh_depth` (leaves may sit at any shallower level), a `next` call from
any index vector of the iterator's shape — length `eh_depth + 1`,
coordinates bounded by the nodes' entry counts — terminates: within the
stated fuel the retry loop returns an item or the end marker, never
panicking and never running out of walks, because every failed walk
strictly increases the index vector in the bounded mixed-radix order;
the returned state keeps the same shape, so every later call terminates
as well. -/
theorem extent_iterator_termination {t : Node} {v : List Nat}
    (hwf : WFL t t.header.eh_depth)
    (hlen : v.length = t.header.eh_depth + 1)
    (hcoords : ∀ x ∈ v, x ≤ maxEntNode t) :
    (∃ e v2, nextFuel t ((maxEntNode t + 1) ^ (t.header.eh_depth + 1) + 1) v =
        NextRes.item e v2 ∧ (∀ x ∈ v2, x ≤ maxEntNode t) ∧
        v2.length = t.header.eh_depth + 1) ∨
    (∃ v2, nextFuel t ((maxEntNode t + 1) ^ (t.header.eh_depth + 1) + 1) v =
        NextRes.done v2) := by
  have hres := nextFuelL_spec hwf (Nat.le_refl (maxEntNode t))
    ((maxEntNode t + 1) ^ (t.header.eh_depth + 1) + 1) v (by omega) hcoords
    (by rw [hlen]; omega)
  rcases hres with ⟨e, v2, heq, hc2, hlen2⟩ | ⟨v2, heq⟩
  · exact Or.inl ⟨e, v2, heq, hc2, by omega⟩
  · exact Or.inr ⟨v2, heq⟩

/-- **C10 witness**: on the concrete non-uniform tree (root depth 2, leaf
reached after one level) a `next` call from the initial state terminates
with an item or the end marker. -/
theorem extent_iterator_termination_witness :
    (WFL rootNU rootNU.header.eh_depth ∧
      (iterInit rootNU).length = rootNU.header.eh_depth + 1 ∧
      (∀ x ∈ iterInit rootNU, x ≤ maxEntNode rootNU)) ∧
    ((∃ e v2, nextFuel rootNU ((maxEntNode rootNU + 1) ^ (rootNU.header.eh_depth + 1) + 1)
          (iterInit rootNU) = NextRes.item e v2 ∧ (∀ x ∈ v2, x ≤ maxEntNode rootNU) ∧
          v2.length = rootNU.header.eh_depth + 1) ∨
      (∃ v2, nextFuel rootNU ((maxEntNode rootNU + 1) ^ (rootNU.header.eh_depth + 1) + 1)
          (iterInit rootNU) = NextRes.done v2)) :=
  ⟨⟨rootNU_wfl, rfl, by decide⟩,
    extent_iterator_termination rootNU_wfl rfl (by decide)⟩
